import Mathlib

/-!
# Shallow embedding of the `TTS_rus_engine` text-normalization pipeline

This file embeds the deterministic text-processing core of the repository
(`multilingual_tts.py` and `yoficator_module.py`) as executable Lean functions
over `List Char`, and proves the specification claims about it.

Conventions of the embedding:
* Python strings are `List Char`; Python's `re` is modelled by direct scanners
  with the same leftmost, non-overlapping, global-substitution semantics.
* Python's Unicode-aware character classes (`\s`, `\w`, `str.isalnum`,
  `str.isalpha`, `str.lower`) are modelled on the character ranges this
  pipeline actually handles: ASCII plus the Cyrillic letters `а`–`я`/`А`–`Я`
  and `ё`/`Ё`.
* External collaborators (the F5-TTS engine, the RUAccent accentizer, the
  yo-dictionary file loaded from disk) are parameters of the pipeline
  functions; the code in `src/` never constrains their behaviour.
-/

namespace TTSRus

/-- View a Lean string literal as the `List Char` representation used throughout. -/
def str (s : String) : List Char := s.data

/-- Python whitespace (`str.strip`, `str.split`, regex `\s`), ASCII part. -/
def isPySpace (c : Char) : Bool :=
  c = ' ' || c = '\t' || c = '\n' || c = '\r' || c = '\x0b' || c = '\x0c'

/-- The characters matched by the source's `[а-яё]` pattern under `re.IGNORECASE`. -/
def isCyr (c : Char) : Bool :=
  ('а' ≤ c && c ≤ 'я') || ('А' ≤ c && c ≤ 'Я') || c = 'ё' || c = 'Ё'

/-- Model of Python `str.isalpha` per character (ASCII + Cyrillic). -/
def isAlphaM (c : Char) : Bool := c.isAlpha || isCyr c

/-- Model of Python `str.isalnum` per character (ASCII + Cyrillic). -/
def isAlnumM (c : Char) : Bool := c.isAlphanum || isCyr c

/-- Model of the regex class `\w` (ASCII + Cyrillic + underscore). -/
def isWordM (c : Char) : Bool := isAlnumM c || c = '_'

/-- Model of Python `str.lower` per character (ASCII + Cyrillic). -/
def toLowerM (c : Char) : Char :=
  if 'A' ≤ c && c ≤ 'Z' then Char.ofNat (c.toNat + 32)
  else if 'А' ≤ c && c ≤ 'Я' then Char.ofNat (c.toNat + 32)
  else if c = 'Ё' then 'ё'
  else c

/-- Python `str.strip()`. -/
def pyStrip (l : List Char) : List Char :=
  ((l.dropWhile isPySpace).reverse.dropWhile isPySpace).reverse

/-- Python `str.rstrip()`. -/
def pyRStrip (l : List Char) : List Char :=
  (l.reverse.dropWhile isPySpace).reverse

/-! ## InputSanitizer: `_is_only_symbols` and `_remove_long_symbol_sequences` -/

/-- `MultilingualTTS._is_only_symbols`: strip spaces; true when nothing remains
or no alphanumeric character remains. -/
def isOnlySymbols (text : List Char) : Bool :=
  let textNoSpaces := text.filter (fun c => c != ' ')
  if textNoSpaces.isEmpty then true
  else ! textNoSpaces.any isAlnumM

/-- One maximal run of the repeat-collapse regex `(.)\1{3,}` → `\1\1\1`:
a run of `n ≥ 4` copies of `c` becomes three copies, except that `.` does not
match a newline, so newline runs pass through. -/
def emitRun (c : Char) (n : Nat) : List Char :=
  if c ≠ '\n' ∧ 4 ≤ n then [c, c, c] else List.replicate n c

/-- Scanner for `_remove_long_symbol_sequences`: `c` is the character of the
current run, `n` the number of copies seen so far. -/
def collapseGo : Char → Nat → List Char → List Char
  | c, n, [] => emitRun c n
  | c, n, d :: ds =>
    if d = c then collapseGo c (n + 1) ds
    else emitRun c n ++ collapseGo d 1 ds

/-- `MultilingualTTS._remove_long_symbol_sequences`:
`re.sub(r'(.)\1{3,}', r'\1\1\1', text)`. -/
def removeLongSymbolSequences : List Char → List Char
  | [] => []
  | c :: cs => collapseGo c 1 cs

/-- Split off the leading run of copies of `c`: its length and the remainder
(a proof-side view of the scanner state of `collapseGo`). -/
def takeRun (c : Char) : List Char → Nat × List Char
  | [] => (0, [])
  | d :: ds =>
    if d = c then ((takeRun c ds).1 + 1, (takeRun c ds).2)
    else (0, d :: ds)

/-- The sanitizer applied by `preprocess_text_for_tts`: the `_is_only_symbols`
rejection followed by `_remove_long_symbol_sequences`, in the order the
pipeline applies them. -/
def sanitizeInput (l : List Char) : List Char :=
  if isOnlySymbols l then [] else removeLongSymbolSequences l

/-! ## LanguageClassifier: `detect_language` -/

inductive Language
  | russian
  | english
deriving DecidableEq, Repr

/-- Count of matches of `[а-яё]` with `re.IGNORECASE`. -/
def cyrillicCount (text : List Char) : Nat := (text.filter isCyr).length

/-- Count of matches of `[a-z]` with `re.IGNORECASE`. -/
def latinCount (text : List Char) : Nat := (text.filter Char.isAlpha).length

/-- `MultilingualTTS.detect_language`. -/
def detectLanguage (text : List Char) : Language :=
  if cyrillicCount text > latinCount text then .russian
  else if latinCount text > cyrillicCount text then .english
  else if cyrillicCount text > 0 then .russian
  else .russian

/-! ## NumeralExpander: `convert_russian_number` and the `\b\d+\b` substitution -/

/-- `self._russian_units` (keys 1–19; every call site stays in that range,
the default branch is unreachable). -/
def russianUnits : Nat → List Char
  | 1 => str "один" | 2 => str "два" | 3 => str "три" | 4 => str "четыре"
  | 5 => str "пять" | 6 => str "шесть" | 7 => str "семь" | 8 => str "восемь"
  | 9 => str "девять" | 10 => str "десять" | 11 => str "одиннадцать"
  | 12 => str "двенадцать" | 13 => str "тринадцать" | 14 => str "четырнадцать"
  | 15 => str "пятнадцать" | 16 => str "шестнадцать" | 17 => str "семнадцать"
  | 18 => str "восемнадцать" | 19 => str "девятнадцать"
  | _ => []

/-- `self._russian_tens` (keys 2–9). -/
def russianTens : Nat → List Char
  | 2 => str "двадцать" | 3 => str "тридцать" | 4 => str "сорок"
  | 5 => str "пятьдесят" | 6 => str "шестьдесят" | 7 => str "семьдесят"
  | 8 => str "восемьдесят" | 9 => str "девяносто"
  | _ => []

/-- `self._russian_hundreds` (keys 1–9). -/
def russianHundreds : Nat → List Char
  | 1 => str "сто" | 2 => str "двести" | 3 => str "триста" | 4 => str "четыреста"
  | 5 => str "пятьсот" | 6 => str "шестьсот" | 7 => str "семьсот"
  | 8 => str "восемьсот" | 9 => str "девятьсот"
  | _ => []

/-- `convert_russian_number` on an integer: the recursive calls in the source
pass Python ints (for which the initial `int(num_str)` is the identity).  The
final else-branch returns the original argument formatted as digits; it is
reached only for `num ≥ 1000000`, which happens only at the string-level entry
point `convertRussianNumber` below. -/
def convertNumber (num : Nat) : List Char :=
  if num = 0 then str "ноль"
  else if num < 20 then russianUnits num
  else if h2 : num < 100 then
    let tens := num / 10
    let units := num % 10
    if units = 0 then russianTens tens
    else russianTens tens ++ ' ' :: russianUnits units
  else if h3 : num < 1000 then
    let hundreds := num / 100
    let remainder := num % 100
    if remainder = 0 then russianHundreds hundreds
    else russianHundreds hundreds ++ ' ' :: convertNumber remainder
  else if h4 : num < 1000000 then
    let thousands := num / 1000
    let remainder := num % 1000
    if remainder = 0 then
      if thousands = 1 then str "тысяча"
      else if thousands < 5 then convertNumber thousands ++ str " тысячи"
      else convertNumber thousands ++ str " тысяч"
    else
      if thousands = 1 then str "тысяча " ++ convertNumber remainder
      else if thousands < 5 then
        convertNumber thousands ++ str " тысячи " ++ convertNumber remainder
      else convertNumber thousands ++ str " тысяч " ++ convertNumber remainder
  else Nat.toDigits 10 num
termination_by num
decreasing_by all_goals omega

/-- The numeric value of a digit string (what `int` returns on it). -/
def digitsVal (s : List Char) : Nat :=
  s.foldl (fun a c => 10 * a + (c.toNat - 48)) 0

/-- Model of `int(num_str)` on the strings this code passes it (maximal digit
runs matched by `\b\d+\b`); any other shape lands in the bare `except` of
`convert_russian_number`, i.e. `none` here. -/
def parseDigits (s : List Char) : Option Nat :=
  if s ≠ [] ∧ s.all Char.isDigit then some (digitsVal s) else none

/-- `convert_russian_number` on the matched digit string.  For values below
one million it delegates to the integer recursion `convertNumber`; at or above
one million (and on a failed parse) it returns the original string. -/
def convertRussianNumber (numStr : List Char) : List Char :=
  match parseDigits numStr with
  | none => numStr
  | some num => if num < 1000000 then convertNumber num else numStr

/-- Does the remaining text start with a `\w` character? -/
def headIsWord (l : List Char) : Bool :=
  match l.head? with
  | some c => isWordM c
  | none => false

theorem dropWhile_length_le (p : Char → Bool) (l : List Char) :
    (l.dropWhile p).length ≤ l.length := by
  induction l with
  | nil => simp [List.dropWhile]
  | cons c cs ih =>
    by_cases h : p c
    · simp only [List.dropWhile, h]
      exact Nat.le_succ_of_le ih
    · simp [List.dropWhile, h]

/-- Scanner for `re.sub(r'\b\d+\b', replace_numbers, result)`.  `prevW` records
whether the character before the current position is a `\w` character (the
state the `\b` assertions consult).  A maximal digit run whose follower is a
word character fails the trailing `\b` at every start position inside the run
and is emitted verbatim.  `fuel` is structural-recursion fuel: every step
consumes at least one character, so any `fuel ≥ l.length` computes the scan. -/
def replaceNumbersGo (fuel : Nat) (prevW : Bool) (l : List Char) : List Char :=
  match fuel, l with
  | _, [] => []
  | 0, _ => []
  | fuel + 1, c :: cs =>
    if prevW = false ∧ c.isDigit then
      let run := (c :: cs).takeWhile Char.isDigit
      let rest := (c :: cs).dropWhile Char.isDigit
      if headIsWord rest then run ++ replaceNumbersGo fuel true rest
      else convertRussianNumber run ++ replaceNumbersGo fuel true rest
    else c :: replaceNumbersGo fuel (isWordM c) cs

/-- The whole-text digit substitution (position 0 has no preceding character,
so the lookbehind state starts as non-word). -/
def replaceAllNumbers (l : List Char) : List Char :=
  replaceNumbersGo l.length false l

/-! ## AbbreviationExpander: the dictionary passes of `_simple_number_conversion` -/

/-- Case-insensitive prefix split: if `cs` starts with `ks` up to `toLowerM`,
return the consumed original characters and the remainder. -/
def splitCI : List Char → List Char → Option (List Char × List Char)
  | [], rest => some ([], rest)
  | _ :: _, [] => none
  | k :: ks, c :: cs =>
    if toLowerM c = toLowerM k then
      match splitCI ks cs with
      | some (m, rest) => some (c :: m, rest)
      | none => none
    else none

theorem splitCI_eq_append {ks cs m rest : List Char}
    (h : splitCI ks cs = some (m, rest)) : cs = m ++ rest := by
  induction ks generalizing cs m rest with
  | nil =>
    simp only [splitCI, Option.some.injEq, Prod.mk.injEq] at h
    simp [← h.1, ← h.2]
  | cons k ks ih =>
    match cs with
    | [] => simp [splitCI] at h
    | c :: cs' =>
      simp only [splitCI] at h
      split at h
      · split at h
        · next m' rest' heq =>
          simp only [Option.some.injEq, Prod.mk.injEq] at h
          rw [← h.1, ← h.2]
          simpa using ih heq
        · exact absurd h (by simp)
      · exact absurd h (by simp)

theorem splitCI_rest_length {ks cs m rest : List Char}
    (h : splitCI ks cs = some (m, rest)) : rest.length ≤ cs.length := by
  rw [splitCI_eq_append h]
  simp

/-- One abbreviation pass: `re.sub(pattern, full, result, flags=re.IGNORECASE)`
where `pattern` is `(?<!\w)KEY(?!\w)` for dotted keys and `\bKEY\b` otherwise.
Every key in the table begins and ends with a `\w` character, so both pattern
forms mean: the key matches case-insensitively, the preceding character (state
`prevW`) is not a word character, and the following character is not a word
character.  The key is split as `k0 :: ks` so every match consumes at least
one character. -/
def subAbbrevGo (k0 : Char) (ks : List Char) (repl : List Char) :
    Nat → Bool → List Char → List Char
  | _, _, [] => []
  | 0, _, _ => []
  | fuel + 1, prevW, c :: cs =>
    if prevW = false ∧ toLowerM c = toLowerM k0 then
      match splitCI ks cs with
      | some (m, rest) =>
        if headIsWord rest then c :: subAbbrevGo k0 ks repl fuel (isWordM c) cs
        else repl ++ subAbbrevGo k0 ks repl fuel (isWordM (m.getLastD c)) rest
      | none => c :: subAbbrevGo k0 ks repl fuel (isWordM c) cs
    else c :: subAbbrevGo k0 ks repl fuel (isWordM c) cs

/-- One `re.sub` pass for a whole abbreviation key. -/
def subAbbrev (key repl l : List Char) : List Char :=
  match key with
  | [] => l
  | k0 :: ks => subAbbrevGo k0 ks repl l.length false l

/-- `re.sub(r'^В\s+', 'В ', result)`: anchored at the start, it rewrites a
leading `В` plus a whitespace run to `В` plus one space (no `IGNORECASE`). -/
def headIsSpace (l : List Char) : Bool :=
  match l.head? with
  | some c => isPySpace c
  | none => false

def subStartV (l : List Char) : List Char :=
  match l with
  | [] => []
  | c :: rest =>
    if c = 'В' ∧ headIsSpace rest then 'В' :: ' ' :: rest.dropWhile isPySpace
    else c :: rest

/-- The `abbreviations` dict after Python dict de-duplication (the duplicate
keys `'ч.'` and `'мин.'` keep their first position with their last value),
sorted as the source sorts it: by descending key length, ties in insertion
order (Python's `sorted` is stable). -/
def sortedAbbrevs : List (List Char × List Char) := [
  (str "к.м.н.", str "кандидат медицинских наук"),
  (str "д.м.н.", str "доктор медицинских наук"),
  (str "к.т.н.", str "кандидат технических наук"),
  (str "д.т.н.", str "доктор технических наук"),
  (str "и т.д.", str "и так далее"),
  (str "и т.п.", str "и тому подобное"),
  (str "UNESCO", str "юнеско"),
  (str "проф.", str "профессор"),
  (str "акад.", str "академик"),
  (str "HTTPS", str "хэ тэ тэ пи эс"),
  (str "напр.", str "например"),
  (str "прим.", str "примерно"),
  (str "макс.", str "максимум"),
  (str "т.е.", str "то есть"),
  (str "т.к.", str "так как"),
  (str "т.д.", str "так далее"),
  (str "т.п.", str "тому подобное"),
  (str "мин.", str "минимум"),
  (str "сек.", str "секунда"),
  (str "сут.", str "сутки"),
  (str "стр.", str "страница"),
  (str "HTTP", str "хэ тэ тэ пи"),
  (str "HTML", str "хэ тэ эм эл"),
  (str "JSON", str "джейсон"),
  (str "NASA", str "наса"),
  (str "USSR", str "у эс эс эр"),
  (str "NATO", str "нато"),
  (str "др.", str "доктор"),
  (str "гг.", str "годы"),
  (str "вв.", str "века"),
  (str "тт.", str "тома"),
  (str "гл.", str "глава"),
  (str "пп.", str "пункты"),
  (str "чч.", str "части"),
  (str "GPT", str "джи пи ти"),
  (str "CPU", str "си пи ю"),
  (str "GPU", str "джи пи ю"),
  (str "RAM", str "рэм"),
  (str "ROM", str "ром"),
  (str "USB", str "ю эс би"),
  (str "HDD", str "хэ дэ дэ"),
  (str "SSD", str "эс эс дэ"),
  (str "API", str "эй пи ай"),
  (str "URL", str "ю ар эл"),
  (str "CSS", str "си эс эс"),
  (str "XML", str "икс эм эл"),
  (str "PDF", str "пи дэ эф"),
  (str "MP3", str "эм пи три"),
  (str "MP4", str "эм пи фо"),
  (str "AVI", str "эй ви ай"),
  (str "MKV", str "эм кей ви"),
  (str "JPG", str "джей пи джи"),
  (str "PNG", str "пи эн джи"),
  (str "GIF", str "джи ай эф"),
  (str "ZIP", str "зип"),
  (str "RAR", str "рар"),
  (str "FBI", str "эф би ай"),
  (str "CIA", str "си ай эй"),
  (str "KGB", str "ка гэ бэ"),
  (str "WHO", str "дабл ю эйч о"),
  (str "кВт", str "киловатт"),
  (str "кГц", str "килогерц"),
  (str "МГц", str "мегагерц"),
  (str "ГГц", str "гигагерц"),
  (str "см.", str "смотри"),
  (str "ок.", str "около"),
  (str "ср.", str "средний"),
  (str "г.", str "год"),
  (str "ч.", str "часть"),
  (str "с.", str "страница"),
  (str "т.", str "том"),
  (str "п.", str "пункт"),
  (str "AI", str "эй ай"),
  (str "JS", str "джей эс"),
  (str "7Z", str "семь зет"),
  (str "UN", str "ю эн"),
  (str "EU", str "и ю"),
  (str "кг", str "килограмм"),
  (str "км", str "километр"),
  (str "см", str "сантиметр"),
  (str "мм", str "миллиметр"),
  (str "мл", str "миллилитр"),
  (str "Вт", str "ватт"),
  (str "Гц", str "герц"),
  (str "л", str "литр"),
  (str "А", str "ампер"),
  (str "м", str "метр")]

/-- All abbreviation passes in order. -/
def applyAbbreviations (l : List Char) : List Char :=
  sortedAbbrevs.foldl (fun result kv => subAbbrev kv.1 kv.2 result) l

/-- The Russian branch of `_simple_number_conversion`: the `^В\s+` rewrite,
the abbreviation passes, then the digit substitution. -/
def simpleNumberConversionRussian (text : List Char) : List Char :=
  replaceAllNumbers (applyAbbreviations (subStartV text))

/-- Exact (case-sensitive) prefix split. -/
def splitExact : List Char → List Char → Option (List Char)
  | [], rest => some rest
  | _ :: _, [] => none
  | k :: ks, c :: cs => if c = k then splitExact ks cs else none

theorem splitExact_length {ks cs rest : List Char}
    (h : splitExact ks cs = some rest) : rest.length ≤ cs.length := by
  induction ks generalizing cs rest with
  | nil =>
    simp only [splitExact, Option.some.injEq] at h
    simp [← h]
  | cons k ks ih =>
    match cs with
    | [] => simp [splitExact] at h
    | c :: cs' =>
      simp only [splitExact] at h
      split at h
      · exact Nat.le_succ_of_le (ih h)
      · exact absurd h (by simp)

/-- Python `str.replace(key, repl)` (all occurrences, left to right,
non-overlapping, case-sensitive, no boundary conditions).  `fuel` is
structural-recursion fuel as in `replaceNumbersGo`. -/
def strReplaceGo (k0 : Char) (ks repl : List Char) :
    Nat → List Char → List Char
  | _, [] => []
  | 0, _ => []
  | fuel + 1, c :: cs =>
    if c = k0 then
      match splitExact ks cs with
      | some rest => repl ++ strReplaceGo k0 ks repl fuel rest
      | none => c :: strReplaceGo k0 ks repl fuel cs
    else c :: strReplaceGo k0 ks repl fuel cs

def strReplace (key repl l : List Char) : List Char :=
  match key with
  | [] => l
  | k0 :: ks => strReplaceGo k0 ks repl l.length l

/-- The English `number_map` dict, sorted by descending key length with ties
in insertion order, as the source sorts it. -/
def sortedNumberMap : List (List Char × List Char) := [
  (str "1000", str "one thousand"),
  (str "100", str "one hundred"),
  (str "10", str "ten"),
  (str "11", str "eleven"),
  (str "12", str "twelve"),
  (str "13", str "thirteen"),
  (str "14", str "fourteen"),
  (str "15", str "fifteen"),
  (str "16", str "sixteen"),
  (str "17", str "seventeen"),
  (str "18", str "eighteen"),
  (str "19", str "nineteen"),
  (str "20", str "twenty"),
  (str "30", str "thirty"),
  (str "40", str "forty"),
  (str "50", str "fifty"),
  (str "60", str "sixty"),
  (str "70", str "seventy"),
  (str "80", str "eighty"),
  (str "90", str "ninety"),
  (str "0", str "zero"),
  (str "1", str "one"),
  (str "2", str "two"),
  (str "3", str "three"),
  (str "4", str "four"),
  (str "5", str "five"),
  (str "6", str "six"),
  (str "7", str "seven"),
  (str "8", str "eight"),
  (str "9", str "nine")]

/-- The English branch of `_simple_number_conversion`: plain `str.replace`
passes in sorted order. -/
def simpleNumberConversionEnglish (text : List Char) : List Char :=
  sortedNumberMap.foldl (fun result kv => strReplace kv.1 kv.2 result) text

/-- `MultilingualTTS._simple_number_conversion`. -/
def simpleNumberConversion (language : Language) (text : List Char) : List Char :=
  match language with
  | .russian => simpleNumberConversionRussian text
  | .english => simpleNumberConversionEnglish text

/-! ## YoficationEngine: `yoficator_module.Yoficator` -/

/-- `self.splitter.findall(text)` for `splitter = re.compile(r'(\s+|\w+|\W+|\S+)')`:
the alternation is tried left to right at each position, so a whitespace run,
a word-character run, or a run of non-word characters (which may absorb
whitespace after its first character) is produced; the `\S+` arm is shadowed
by the first three.  Consecutive matches tile the input. -/
def tokenizeGo : Nat → List Char → List (List Char)
  | _, [] => []
  | 0, _ => []
  | fuel + 1, c :: cs =>
    if isPySpace c then
      (c :: cs.takeWhile isPySpace) :: tokenizeGo fuel (cs.dropWhile isPySpace)
    else if isWordM c then
      (c :: cs.takeWhile isWordM) :: tokenizeGo fuel (cs.dropWhile isWordM)
    else
      (c :: cs.takeWhile (fun d => ! isWordM d)) ::
        tokenizeGo fuel (cs.dropWhile (fun d => ! isWordM d))

def tokenize (l : List Char) : List (List Char) := tokenizeGo l.length l

/-- Python `word and word.isalpha()` (nonempty and all alphabetic). -/
def pyIsAlpha (w : List Char) : Bool := ! w.isEmpty && w.all isAlphaM

/-- `str.replace(a, b)` for single characters is a character map. -/
def mapReplaceChar (a b : Char) (w : List Char) : List Char :=
  w.map (fun c => if c = a then b else c)

def lowerW (w : List Char) : List Char := w.map toLowerM

/-- `re.sub(r'е([^ё]*)$', r'ё\1', word)`: the leftmost `е` that is followed by
no `ё` up to the end of the word is replaced by `ё`; if every `е` has a later
`ё`, nothing matches. -/
def subLastE : List Char → List Char
  | [] => []
  | c :: cs =>
    if c = 'е' ∧ cs.contains 'ё' = false then 'ё' :: cs
    else c :: subLastE cs

/-- Exception list of rule 6 of `_apply_additional_rules`. -/
def elExceptions : List (List Char) :=
  [str "медведь", str "привет", str "как", str "дела", str "удел",
   str "предел", str "умел", str "смел", str "дела"]

/-- Exception list of rule 7 of `_apply_additional_rules`. -/
def aExceptions : List (List Char) :=
  [str "телка", str "щелка", str "мелка", str "желтка", str "дела"]

/-- `Yoficator._apply_additional_rules`.  The source's nested `if`s fall
through to the next rule when an exception list fires, which this flat chain
reproduces (each guard conjoins the rule's trigger with its non-exception). -/
def applyAdditionalRules (word : List Char) : List Char :=
  if ¬ pyIsAlpha word then word
  else if lowerW word = str "телка" then mapReplaceChar 'е' 'ё' word
  else if lowerW word = str "осел" then mapReplaceChar 'е' 'ё' word
  else if lowerW word = str "еще" then str "ещё"
  else if lowerW word = str "ее" then str "её"
  else if lowerW word = str "произнес" then mapReplaceChar 'е' 'ё' word
  else if (str "ел").isSuffixOf (lowerW word) ∧ 3 < word.length ∧
      elExceptions.contains (lowerW word) = false then
    strReplace (str "ел") (str "ёл") word
  else if (str "а").isSuffixOf (lowerW word) ∧
      (lowerW word).dropLast.contains 'е' = true ∧
      aExceptions.contains (lowerW word) = false then
    subLastE word
  else word

/-- The dictionary lookup `token in self.dictionary` / `self.dictionary[token]`.
The dictionary is built from the external `yo.dat` file (absent from `src/`),
so it is a parameter of the embedding. -/
def lookupYo : List (List Char × List Char) → List Char → Option (List Char)
  | [], _ => none
  | (k, v) :: d, t => if k = t then some v else lookupYo d t

/-- The per-token branch of `Yoficator.yoficate`. -/
def yoficateToken (dict : List (List Char × List Char)) (token : List Char) :
    List Char :=
  match lookupYo dict token with
  | some v => v
  | none => applyAdditionalRules token

/-- `Yoficator.yoficate` (the module-level `yoficate_text`).  An empty
dictionary (missing `yo.dat`) returns the text unchanged. -/
def yoficate (dict : List (List Char × List Char)) (text : List Char) :
    List Char :=
  if dict.isEmpty then text
  else ((tokenize text).map (yoficateToken dict)).flatten

/-! ## NormalizationPipeline: `normalize_text`, `add_accents`,
`preprocess_text_for_tts` -/

/-- `MultilingualTTS.normalize_text`.  `_preprocess_gpt_issues` is the
identity; the `try` around yofication cannot fail in the embedding. -/
def normalizeText (yoDict : List (List Char × List Char)) (text : List Char)
    (language : Language) : List Char :=
  if (pyStrip text).isEmpty then text
  else
    let normalized := simpleNumberConversion language text
    match language with
    | .russian => yoficate yoDict normalized
    | .english => normalized

/-- `MultilingualTTS.add_accents`.  The accentizer (RUAccent) is external, so
its text transform is a parameter; `none` models `self.accentizer is None`. -/
def addAccents (accentizer : Option (List Char → List Char)) (text : List Char) :
    List Char :=
  match accentizer with
  | none => text
  | some f => if (pyStrip text).isEmpty then text else f text

/-- Python `' '.join(text.split())`: split on whitespace runs (dropping empty
pieces) and re-join with single spaces. -/
def pySplitGo : Nat → List Char → List (List Char)
  | _, [] => []
  | 0, _ => []
  | fuel + 1, c :: cs =>
    if isPySpace c then pySplitGo fuel cs
    else
      (c :: cs.takeWhile (fun d => ! isPySpace d)) ::
        pySplitGo fuel (cs.dropWhile (fun d => ! isPySpace d))

def pySplit (l : List Char) : List (List Char) := pySplitGo l.length l

def intercalSpace : List (List Char) → List Char
  | [] => []
  | [w] => w
  | w :: ws => w ++ ' ' :: intercalSpace ws

def joinSpaces (l : List Char) : List Char := intercalSpace (pySplit l)

/-- Does the processed text already end in sentence punctuation
(`str.endswith(('.', '!', '?'))`)? -/
def endsWithSentencePunct (l : List Char) : Bool :=
  match l.getLast? with
  | some c => c = '.' || c = '!' || c = '?'
  | none => false

/-- The terminal-punctuation block of `preprocess_text_for_tts`: when the
text is nonempty, strip trailing whitespace and append `'.'` unless the text
already ends in `.`, `!` or `?`. -/
def finalizePunctuation (l : List Char) : List Char :=
  if l.isEmpty then l
  else
    let r := pyRStrip l
    if endsWithSentencePunct r then r else r ++ ['.']

/-- `MultilingualTTS.preprocess_text_for_tts`.  `yoDict` is the external
yo-dictionary, `enableAccent` is `self.enable_accent`, and `accentizer`
models `self.accentizer` (its external transform, or `none`). -/
def preprocessTextForTTS (yoDict : List (List Char × List Char))
    (enableAccent : Bool) (accentizer : Option (List Char → List Char))
    (text : List Char) : List Char :=
  let processed := pyStrip text
  if processed.isEmpty then []
  else if isOnlySymbols processed then []
  else
    let processed := removeLongSymbolSequences processed
    if (pyStrip processed).isEmpty then []
    else
      let language := detectLanguage processed
      let processed := joinSpaces processed
      let processed := normalizeText yoDict processed language
      let processed :=
        if language = .russian ∧ enableAccent then addAccents accentizer processed
        else processed
      finalizePunctuation processed

/-! ## ProsodyHeuristic and `synthesize_speech` -/

/-- The automatic speaking-rate step function of `synthesize_speech`
(the decimal literals of the source are exact, so `ℚ` models them). -/
def autoSpeed (length : Nat) : ℚ :=
  if length ≤ 3 then 0.1
  else if length ≤ 8 then 0.3
  else if length ≤ 18 then 0.6
  else if length ≤ 35 then 0.8
  else if length ≤ 45 then 0.9
  else 1.0

/-- The automatic NFE-step choice of `synthesize_speech`. -/
def autoNfeStep (length : Nat) : Nat :=
  if length > 120 then 18 else 26

/-- `len(processed_text.replace(" ", ""))`. -/
def lengthWithoutSpaces (l : List Char) : Nat :=
  (l.filter (fun c => c != ' ')).length

/-- `if speed is None: speed = ...` -/
def chooseSpeed (speed : Option ℚ) (length : Nat) : ℚ :=
  match speed with
  | some s => s
  | none => autoSpeed length

/-- `if nfe_step is None: nfe_step = ...` -/
def chooseNfeStep (nfeStep : Option Nat) (length : Nat) : Nat :=
  match nfeStep with
  | some k => k
  | none => autoNfeStep length

/-- The payload `synthesize_speech` hands to the external F5-TTS engine
(the fields the specification's claims constrain). -/
structure SynthesisRequest where
  genText : List Char
  speed : ℚ
  nfeStep : Nat

/-- `MultilingualTTS.synthesize_speech` up to the external engine call:
empty preprocessed text returns `None` before any engine work; otherwise the
prosody parameters are fixed and the external engine (a parameter, whose
`try`-wrapped inference may fail, i.e. return `none`) produces the output
path.  `russianLoaded` models `self.russian_tts` being non-`None`. -/
def synthesizeSpeech (yoDict : List (List Char × List Char))
    (enableAccent : Bool) (accentizer : Option (List Char → List Char))
    (russianLoaded : Bool) (engine : SynthesisRequest → Option (List Char))
    (text : List Char) (speed : Option ℚ) (nfeStep : Option Nat) :
    Option (List Char) :=
  let processed := preprocessTextForTTS yoDict enableAccent accentizer text
  if processed.isEmpty then none
  else
    let L := lengthWithoutSpaces processed
    let speedVal := chooseSpeed speed L
    let nfeVal := chooseNfeStep nfeStep L
    if russianLoaded then engine ⟨processed, speedVal, nfeVal⟩ else none

/-! ## Verification predicates

Executable predicates used to state and prove the claims; they are not part
of the embedded program. -/

/-- The length a run of `n` copies of `c` has after the collapse regex. -/
def collapsedLen (c : Char) (n : Nat) : Nat :=
  if c ≠ '\n' ∧ 4 ≤ n then 3 else n

/-- Every whitespace character in `l` is a plain space. -/
def isOnlyPlainSpace (l : List Char) : Bool :=
  l.all (fun c => ! isPySpace c || c = ' ')

/-- Two adjacent characters are not both spaces. -/
def noSpacePair (a b : Char) : Prop := ¬ (a = ' ' ∧ b = ' ')

instance : DecidableRel noSpacePair :=
  fun a b => inferInstanceAs (Decidable ¬(a = ' ' ∧ b = ' '))

/-- Cleanliness of every suffix of a canonically spaced string: whitespace is
only single plain spaces and the string does not end in one. -/
def suffClean (l : List Char) : Prop :=
  isOnlyPlainSpace l = true ∧ l.Chain' noSpacePair ∧ l.getLast? ≠ some ' '

/-- Canonically spaced: single plain spaces only, neither leading nor
trailing. -/
def cleanSpaced (l : List Char) : Prop :=
  suffClean l ∧ l.head? ≠ some ' '

/-- A spoken-words string as the numeral expander produces them: nonempty,
digit-free, canonically spaced. -/
def wordShaped (l : List Char) : Prop :=
  l ≠ [] ∧ l.all (fun c => ! c.isDigit) = true ∧ cleanSpaced l

/-- A kernel-reducible decision procedure for the no-adjacent-spaces chain
(the library instance is tactic-defined and does not evaluate). -/
instance instDecChainNoSpacePair : ∀ l : List Char, Decidable (l.Chain' noSpacePair)
  | [] => .isTrue List.chain'_nil
  | [_] => .isTrue (List.chain'_singleton _)
  | a :: b :: t =>
    haveI := instDecChainNoSpacePair (b :: t)
    decidable_of_decidable_of_iff (List.chain'_cons (R := noSpacePair)).symm

instance (l : List Char) : Decidable (suffClean l) :=
  inferInstanceAs (Decidable (isOnlyPlainSpace l = true ∧
    l.Chain' noSpacePair ∧ l.getLast? ≠ some ' '))

instance (l : List Char) : Decidable (cleanSpaced l) :=
  inferInstanceAs (Decidable (suffClean l ∧ l.head? ≠ some ' '))

instance (l : List Char) : Decidable (wordShaped l) :=
  inferInstanceAs (Decidable (l ≠ [] ∧
    l.all (fun c => ! c.isDigit) = true ∧ cleanSpaced l))

/-- Does the case-folded `s` occur as a contiguous substring of the
case-folded `t`?  (The overlap notion of C8: keys match case-insensitively,
so "one key a substring of the other" is substring up to `toLowerM`.) -/
def containsFold (s : List Char) : List Char → Bool
  | [] => (splitCI s []).isSome
  | c :: cs => (splitCI s (c :: cs)).isSome || containsFold s cs

/-- At a position whose remaining text is `t`, the pass for `key` cannot fire
for any right context extending `t`: either the key matches here and the
trailing `(?!\w)` fails on a character of `t` itself, or the key fails to
match and the failure is a genuine character mismatch inside `t` (not `t`
running out mid-key, which a longer context could complete). -/
def keySafeAt (key t : List Char) : Bool :=
  match splitCI key t with
  | some (_, rest) => headIsWord rest
  | none => ! (t.length < key.length && (splitCI t key).isSome)

/-- No position of `v` admits a match of `key` (with its boundary rule) for
any surrounding context: positions with a word character before them in `v`
are blocked by the lookbehind, and every other position is `keySafeAt`.  The
initial `prevW` is the lookbehind state at the start of `v`; `false` is the
most permissive choice. -/
def keyInertGo (key : List Char) : Bool → List Char → Bool
  | _, [] => true
  | prevW, c :: cs => (prevW || keySafeAt key (c :: cs)) && keyInertGo key (isWordM c) cs

/-- `key` can never fire inside `v`, wherever `v` stands in a larger text. -/
def keyInert (key v : List Char) : Bool := keyInertGo key false v

/-- The lookbehind state of the scanner after it has emitted `v`, having
entered it with state `pw`. -/
def endState (pw : Bool) (v : List Char) : Bool :=
  match v.getLast? with
  | some c => isWordM c
  | none => pw

/-- A well-formed yo-dictionary entry: key and value are nonempty alphabetic
words (the `yo.dat` format of §6 of the specification produces exactly such
entries). -/
def yoWordEntry (kv : List Char × List Char) : Prop :=
  kv.1 ≠ [] ∧ kv.1.all isAlphaM = true ∧ kv.2 ≠ [] ∧ kv.2.all isAlphaM = true

instance (kv : List Char × List Char) : Decidable (yoWordEntry kv) :=
  inferInstanceAs (Decidable (kv.1 ≠ [] ∧ kv.1.all isAlphaM = true ∧
    kv.2 ≠ [] ∧ kv.2.all isAlphaM = true))

/-! ## General helper lemmas -/

set_option maxRecDepth 10000

theorem takeWhile_append_of_all {p : Char → Bool} {u : List Char}
    (v : List Char) (h : ∀ c ∈ u, p c = true) :
    (u ++ v).takeWhile p = u ++ v.takeWhile p := by
  induction u with
  | nil => simp
  | cons c cs ih =>
    simp only [List.cons_append, List.takeWhile_cons]
    rw [h c (by simp), if_pos rfl, ih (fun d hd => h d (by simp [hd]))]

theorem dropWhile_append_of_all {p : Char → Bool} {u : List Char}
    (v : List Char) (h : ∀ c ∈ u, p c = true) :
    (u ++ v).dropWhile p = v.dropWhile p := by
  induction u with
  | nil => simp
  | cons c cs ih =>
    simp only [List.cons_append, List.dropWhile_cons]
    rw [h c (by simp), if_pos rfl]
    exact ih (fun d hd => h d (by simp [hd]))

theorem takeWhile_eq_nil_of_head {p : Char → Bool} {v : List Char}
    (h : ∀ c, v.head? = some c → p c = false) : v.takeWhile p = [] := by
  cases v with
  | nil => rfl
  | cons c cs => simp [List.takeWhile_cons, h c rfl]

theorem dropWhile_eq_self_of_head {p : Char → Bool} {v : List Char}
    (h : ∀ c, v.head? = some c → p c = false) : v.dropWhile p = v := by
  cases v with
  | nil => rfl
  | cons c cs => simp [List.dropWhile_cons, h c rfl]

theorem getLast?_cons_of_ne_nil {c : Char} {l : List Char} (h : l ≠ []) :
    (c :: l).getLast? = l.getLast? := by
  cases l with
  | nil => exact absurd rfl h
  | cons d ds => simp [List.getLast?_cons_cons]

theorem getLast?_append_of_ne_nil {u v : List Char} (h : v ≠ []) :
    (u ++ v).getLast? = v.getLast? := by
  induction u with
  | nil => simp
  | cons c cs ih =>
    rw [List.cons_append, getLast?_cons_of_ne_nil (by simp [h]), ih]

/-! ## Claim C1: canonical text is empty or ends in sentence punctuation -/

theorem finalizePunctuation_spec (l : List Char) :
    finalizePunctuation l = [] ∨
    (finalizePunctuation l).getLast? = some '.' ∨
    (finalizePunctuation l).getLast? = some '!' ∨
    (finalizePunctuation l).getLast? = some '?' := by
  simp only [finalizePunctuation]
  split
  · next h => exact Or.inl (by simpa [List.isEmpty_iff] using h)
  · split
    · next h2 =>
      unfold endsWithSentencePunct at h2
      cases hg : (pyRStrip l).getLast? with
      | none => rw [hg] at h2; exact absurd h2 (by simp)
      | some c =>
        rw [hg] at h2
        simp only [Bool.or_eq_true, decide_eq_true_eq] at h2
        refine Or.inr ?_
        rcases h2 with (h2 | h2) | h2 <;> simp [h2]
    · exact Or.inr (Or.inl (by simp))

/-- C1: for every input text (and any yo-dictionary, accent setting and
external accentizer), the canonical text returned by the normalization
pipeline `preprocess_text_for_tts` is either the empty string (the "nothing
to synthesize" signal) or ends in one of the characters `.`, `!`, `?`. -/
theorem preprocess_terminal_punctuation
    (yoDict : List (List Char × List Char)) (enableAccent : Bool)
    (accentizer : Option (List Char → List Char)) (text : List Char) :
    preprocessTextForTTS yoDict enableAccent accentizer text = [] ∨
    (preprocessTextForTTS yoDict enableAccent accentizer text).getLast? = some '.' ∨
    (preprocessTextForTTS yoDict enableAccent accentizer text).getLast? = some '!' ∨
    (preprocessTextForTTS yoDict enableAccent accentizer text).getLast? = some '?' := by
  simp only [preprocessTextForTTS]
  split
  · exact Or.inl rfl
  · split
    · exact Or.inl rfl
    · split
      · exact Or.inl rfl
      · exact finalizePunctuation_spec _

/-! ## Claim C2: the language-detection decision rule -/

/-- C2: `detect_language` returns exactly one of russian or english by
counting Cyrillic letters (`а`–`я` with `ё`, case-insensitive) and Latin
letters (`a`–`z`, case-insensitive), applying in order: more Cyrillic →
russian; more Latin → english; tie with at least one Cyrillic letter →
russian; no letters at all → russian; and the four documented examples. -/
theorem detect_language_rule :
    (∀ t, latinCount t < cyrillicCount t → detectLanguage t = .russian) ∧
    (∀ t, cyrillicCount t < latinCount t → detectLanguage t = .english) ∧
    (∀ t, cyrillicCount t = latinCount t → 0 < cyrillicCount t →
      detectLanguage t = .russian) ∧
    (∀ t, cyrillicCount t = 0 → latinCount t = 0 → detectLanguage t = .russian) ∧
    detectLanguage (str "Привет!") = .russian ∧
    detectLanguage (str "Hello!") = .english ∧
    detectLanguage (str "123") = .russian ∧
    detectLanguage (str "") = .russian := by
  refine ⟨?_, ?_, ?_, ?_, by decide, by decide, by decide, by decide⟩ <;>
    · intro t h
      first
        | (intro h2; unfold detectLanguage; split_ifs <;> first | rfl | omega)
        | (unfold detectLanguage; split_ifs <;> first | rfl | omega)

theorem detect_language_rule_witness :
    detectLanguage (str "ж1") = .russian ∧ detectLanguage (str "ab") = .english :=
  ⟨detect_language_rule.1 (str "ж1") (by decide),
   detect_language_rule.2.1 (str "ab") (by decide)⟩

/-! ## Claim C4: agreement of the thousand noun form -/

/-- The general ≥ 5 thousand-multiples case of C4. -/
theorem convertNumber_thousands_many (k : Nat) (h5 : 5 ≤ k) (h999 : k ≤ 999) :
    convertNumber (1000 * k) = convertNumber k ++ str " тысяч" := by
  have hne : ¬ (1000 * k = 0) := by omega
  have h20 : ¬ (1000 * k < 20) := by omega
  have h100 : ¬ (1000 * k < 100) := by omega
  have h1000 : ¬ (1000 * k < 1000) := by omega
  have h1e6 : 1000 * k < 1000000 := by omega
  have hdiv : 1000 * k / 1000 = k := by omega
  have hmod : 1000 * k % 1000 = 0 := by omega
  have hk1 : ¬ (k = 1) := by omega
  have hk5 : ¬ (k < 5) := by omega
  rw [convertNumber.eq_def]
  simp only [if_neg hne, if_neg h20, dif_neg h100, dif_neg h1000, dif_pos h1e6]
  simp [hdiv, hmod, hk1, hk5]

/-- On an in-range parse, the string entry point hands over to the integer
recursion. -/
theorem convertRussianNumber_of_parse {s : List Char} (n : Nat)
    (h : parseDigits s = some n) (hn : n < 1000000) :
    convertRussianNumber s = convertNumber n := by
  rw [convertRussianNumber, h]
  simp [hn]

/-- C4: thousand-multiples take the agreeing noun form determined by the
thousands count: `1` → `один`, `1000` → the singular `тысяча`, `2000`–`4000`
→ the first plural `тысячи`, and `5000` (and every exact thousand-multiple
with thousands count ≥ 5) → the "many" form `тысяч`. -/
theorem thousands_agreement :
    convertRussianNumber (str "1") = str "один" ∧
    convertRussianNumber (str "1000") = str "тысяча" ∧
    convertRussianNumber (str "2000") = str "два тысячи" ∧
    convertRussianNumber (str "3000") = str "три тысячи" ∧
    convertRussianNumber (str "4000") = str "четыре тысячи" ∧
    convertRussianNumber (str "5000") = str "пять тысяч" ∧
    (∀ k : Nat, 5 ≤ k → k ≤ 999 →
      convertNumber (1000 * k) = convertNumber k ++ str " тысяч") := by
  refine ⟨?_, ?_, ?_, ?_, ?_, ?_, convertNumber_thousands_many⟩
  · rw [convertRussianNumber_of_parse 1 (by decide) (by norm_num),
      convertNumber.eq_def]
    norm_num [russianUnits]
  · rw [convertRussianNumber_of_parse 1000 (by decide) (by norm_num),
      convertNumber.eq_def]
    norm_num
  · rw [convertRussianNumber_of_parse 2000 (by decide) (by norm_num),
      convertNumber.eq_def]
    norm_num
    rw [convertNumber.eq_def]
    norm_num [russianUnits]
    decide
  · rw [convertRussianNumber_of_parse 3000 (by decide) (by norm_num),
      convertNumber.eq_def]
    norm_num
    rw [convertNumber.eq_def]
    norm_num [russianUnits]
    decide
  · rw [convertRussianNumber_of_parse 4000 (by decide) (by norm_num),
      convertNumber.eq_def]
    norm_num
    rw [convertNumber.eq_def]
    norm_num [russianUnits]
    decide
  · rw [convertRussianNumber_of_parse 5000 (by decide) (by norm_num),
      convertNumber.eq_def]
    norm_num
    rw [convertNumber.eq_def]
    norm_num [russianUnits]
    decide

theorem thousands_agreement_witness :
    convertNumber (1000 * 7) = convertNumber 7 ++ str " тысяч" :=
  thousands_agreement.2.2.2.2.2.2 7 (by norm_num) (by norm_num)

/-! ## Claim C5: empty normalization result stops synthesis -/

/-- C5: an input that normalizes to empty text — in particular the
symbol-only input `"...!!!!"` — yields the empty canonical text, and
`synthesize_speech` then returns the distinguished `None` result for every
choice of external engine, i.e. before the engine is ever consulted. -/
theorem empty_input_no_synthesis :
    (∀ yoDict enableAccent accentizer,
      preprocessTextForTTS yoDict enableAccent accentizer (str "...!!!!") = []) ∧
    (∀ yoDict enableAccent accentizer russianLoaded engine text speed nfeStep,
      preprocessTextForTTS yoDict enableAccent accentizer text = [] →
      synthesizeSpeech yoDict enableAccent accentizer russianLoaded engine
        text speed nfeStep = none) := by
  constructor
  · intro yoDict enableAccent accentizer
    rfl
  · intro yoDict enableAccent accentizer russianLoaded engine text speed nfeStep h
    unfold synthesizeSpeech
    simp [h]

theorem empty_input_no_synthesis_witness :
    synthesizeSpeech [] false none true (fun _ => some []) (str "...!!!!")
      none none = none :=
  empty_input_no_synthesis.2 [] false none true (fun _ => some [])
    (str "...!!!!") none none (empty_input_no_synthesis.1 [] false none)

/-! ## Claim C9: the prosody heuristic -/

/-- C9: with no caller-supplied value, the speaking rate and integration
steps are the stated pure step functions of `L`, the length of the canonical
text with spaces removed; a caller-supplied explicit value bypasses the
heuristic; and `synthesize_speech` feeds the engine exactly these choices. -/
theorem prosody_heuristic_spec :
    (∀ L, L ≤ 3 → autoSpeed L = 0.1) ∧
    (∀ L, 3 < L → L ≤ 8 → autoSpeed L = 0.3) ∧
    (∀ L, 8 < L → L ≤ 18 → autoSpeed L = 0.6) ∧
    (∀ L, 18 < L → L ≤ 35 → autoSpeed L = 0.8) ∧
    (∀ L, 35 < L → L ≤ 45 → autoSpeed L = 0.9) ∧
    (∀ L, 45 < L → autoSpeed L = 1) ∧
    (∀ L, 120 < L → autoNfeStep L = 18) ∧
    (∀ L, L ≤ 120 → autoNfeStep L = 26) ∧
    (∀ s L, chooseSpeed (some s) L = s) ∧
    (∀ k L, chooseNfeStep (some k) L = k) ∧
    (∀ L, chooseSpeed none L = autoSpeed L) ∧
    (∀ L, chooseNfeStep none L = autoNfeStep L) ∧
    (∀ yoDict enableAccent accentizer engine text speed nfeStep,
      preprocessTextForTTS yoDict enableAccent accentizer text ≠ [] →
      synthesizeSpeech yoDict enableAccent accentizer true engine text speed nfeStep =
        engine ⟨preprocessTextForTTS yoDict enableAccent accentizer text,
          chooseSpeed speed
            (lengthWithoutSpaces (preprocessTextForTTS yoDict enableAccent accentizer text)),
          chooseNfeStep nfeStep
            (lengthWithoutSpaces (preprocessTextForTTS yoDict enableAccent accentizer text))⟩) := by
  refine ⟨?_, ?_, ?_, ?_, ?_, ?_, ?_, ?_,
    fun s L => rfl, fun k L => rfl, fun L => rfl, fun L => rfl, ?_⟩
  · intro L h; unfold autoSpeed; rw [if_pos (by omega)]
  · intro L h h2; unfold autoSpeed; rw [if_neg (by omega), if_pos (by omega)]
  · intro L h h2; unfold autoSpeed
    rw [if_neg (by omega), if_neg (by omega), if_pos (by omega)]
  · intro L h h2; unfold autoSpeed
    rw [if_neg (by omega), if_neg (by omega), if_neg (by omega), if_pos (by omega)]
  · intro L h h2; unfold autoSpeed
    rw [if_neg (by omega), if_neg (by omega), if_neg (by omega), if_neg (by omega),
        if_pos (by omega)]
  · intro L h; unfold autoSpeed
    rw [if_neg (by omega), if_neg (by omega), if_neg (by omega), if_neg (by omega),
        if_neg (by omega)]
    norm_num
  · intro L h; unfold autoNfeStep; rw [if_pos (by omega)]
  · intro L h; unfold autoNfeStep; rw [if_neg (by omega)]
  · intro yoDict enableAccent accentizer engine text speed nfeStep h
    unfold synthesizeSpeech
    rw [if_neg (by simpa [List.isEmpty_iff] using h), if_pos rfl]

theorem prosody_heuristic_spec_witness :
    autoSpeed 2 = 0.1 ∧ autoSpeed 50 = 1 ∧ autoNfeStep 130 = 18 ∧
    autoNfeStep 50 = 26 ∧
    synthesizeSpeech [] false none true (fun r => some r.genText)
      (str "Привет!") none none =
      some (str "Привет!") := by
  refine ⟨prosody_heuristic_spec.1 2 (by norm_num),
    prosody_heuristic_spec.2.2.2.2.2.1 50 (by norm_num),
    prosody_heuristic_spec.2.2.2.2.2.2.1 130 (by norm_num),
    prosody_heuristic_spec.2.2.2.2.2.2.2.1 50 (by norm_num), ?_⟩
  rw [prosody_heuristic_spec.2.2.2.2.2.2.2.2.2.2.2.2 [] false none
    (fun r => some r.genText) (str "Привет!") none none (by decide)]
  decide

/-! ## Claim C6: the sanitizer is idempotent -/

theorem emitRun_eq_replicate (c : Char) (n : Nat) :
    emitRun c n = List.replicate (collapsedLen c n) c := by
  unfold emitRun collapsedLen
  split
  · rfl
  · rfl

theorem collapsedLen_pos (c : Char) {n : Nat} (h : 1 ≤ n) :
    1 ≤ collapsedLen c n := by
  unfold collapsedLen
  split <;> omega

theorem emitRun_collapsedLen (c : Char) (n : Nat) :
    emitRun c (collapsedLen c n) = emitRun c n := by
  unfold emitRun collapsedLen
  by_cases h : c ≠ '\n' ∧ 4 ≤ n
  · rw [if_pos h, if_neg (by omega), if_pos h]
    rfl
  · rw [if_neg h, if_neg h]

theorem takeRun_spec (c : Char) (ds : List Char) :
    ds = List.replicate (takeRun c ds).1 c ++ (takeRun c ds).2 := by
  induction ds with
  | nil => rfl
  | cons d ds ih =>
    unfold takeRun
    by_cases h : d = c
    · rw [if_pos h]
      simp only [List.replicate_succ, List.cons_append]
      rw [h]
      exact congrArg _ ih
    · rw [if_neg h]
      rfl

theorem takeRun_head (c : Char) (ds : List Char) :
    ∀ d, (takeRun c ds).2.head? = some d → d ≠ c := by
  induction ds with
  | nil => intro d h; exact absurd h (by simp [takeRun])
  | cons e ds ih =>
    intro d h
    unfold takeRun at h
    by_cases he : e = c
    · rw [if_pos he] at h
      exact ih d h
    · rw [if_neg he] at h
      simp only [List.head?_cons, Option.some.injEq] at h
      rw [h] at he
      exact he

theorem takeRun_snd_length (c : Char) (ds : List Char) :
    (takeRun c ds).2.length ≤ ds.length := by
  conv_rhs => rw [takeRun_spec c ds]
  simp

theorem takeRun_replicate (c : Char) (k : Nat) (rest : List Char)
    (h : rest.head? ≠ some c) : takeRun c (List.replicate k c ++ rest) = (k, rest) := by
  induction k with
  | zero =>
    simp only [List.replicate_zero, List.nil_append]
    cases rest with
    | nil => rfl
    | cons d ds =>
      unfold takeRun
      rw [if_neg (by intro hd; exact h (by rw [hd]; rfl))]
  | succ k ih =>
    simp only [List.replicate_succ, List.cons_append]
    unfold takeRun
    rw [if_pos rfl, ih]

theorem collapseGo_eq (c : Char) (ds : List Char) : ∀ n : Nat,
    collapseGo c n ds =
      emitRun c (n + (takeRun c ds).1) ++
        removeLongSymbolSequences (takeRun c ds).2 := by
  induction ds with
  | nil => intro n; simp [collapseGo, takeRun, removeLongSymbolSequences]
  | cons d ds ih =>
    intro n
    unfold collapseGo takeRun
    by_cases h : d = c
    · rw [if_pos h, if_pos h, ih (n + 1)]
      have : n + 1 + (takeRun c ds).1 = n + ((takeRun c ds).1 + 1) := by omega
      rw [this]
    · rw [if_neg h, if_neg h]
      simp [removeLongSymbolSequences]

theorem removeLong_cons (c : Char) (cs : List Char) :
    removeLongSymbolSequences (c :: cs) =
      emitRun c (1 + (takeRun c cs).1) ++
        removeLongSymbolSequences (takeRun c cs).2 := by
  unfold removeLongSymbolSequences
  exact collapseGo_eq c cs 1

theorem removeLong_head? (l : List Char) :
    (removeLongSymbolSequences l).head? = l.head? := by
  cases l with
  | nil => rfl
  | cons c cs =>
    rw [removeLong_cons, emitRun_eq_replicate]
    have h1 : 1 ≤ collapsedLen c (1 + (takeRun c cs).1) :=
      collapsedLen_pos c (by omega)
    cases hn : collapsedLen c (1 + (takeRun c cs).1) with
    | zero => omega
    | succ m => simp [List.replicate_succ]

theorem removeLong_emit (c : Char) {n : Nat} (hn : 1 ≤ n) (t : List Char)
    (ht : t.head? ≠ some c) :
    removeLongSymbolSequences (emitRun c n ++ t) =
      emitRun c n ++ removeLongSymbolSequences t := by
  have hpos := collapsedLen_pos c hn
  rw [emitRun_eq_replicate]
  cases hm : collapsedLen c n with
  | zero => omega
  | succ m =>
    simp only [List.replicate_succ, List.cons_append]
    rw [removeLong_cons, takeRun_replicate c m t ht]
    have : emitRun c (1 + m) = List.replicate (m + 1) c := by
      have h1 : 1 + m = collapsedLen c n := by omega
      rw [h1, emitRun_collapsedLen, emitRun_eq_replicate, hm]
    rw [this]
    simp [List.replicate_succ]

theorem removeLong_idem_aux : ∀ (n : Nat) (l : List Char), l.length ≤ n →
    removeLongSymbolSequences (removeLongSymbolSequences l) =
      removeLongSymbolSequences l := by
  intro n
  induction n with
  | zero =>
    intro l hl
    have : l = [] := by
      cases l with
      | nil => rfl
      | cons c cs => simp at hl
    rw [this]
    rfl
  | succ n ih =>
    intro l hl
    cases l with
    | nil => rfl
    | cons c cs =>
      rw [removeLong_cons]
      have hrest := takeRun_snd_length c cs
      have hhead : (removeLongSymbolSequences (takeRun c cs).2).head? ≠ some c := by
        rw [removeLong_head?]
        intro h
        exact takeRun_head c cs c h rfl
      rw [removeLong_emit c (by omega) _ hhead]
      rw [ih (takeRun c cs).2 (by simp at hl; omega)]

/-- The repeat-collapse substitution is idempotent. -/
theorem removeLong_idem (l : List Char) :
    removeLongSymbolSequences (removeLongSymbolSequences l) =
      removeLongSymbolSequences l :=
  removeLong_idem_aux l.length l (Nat.le_refl _)

theorem mem_emitRun {a c : Char} {n : Nat} (hn : 1 ≤ n) :
    a ∈ emitRun c n ↔ a = c := by
  rw [emitRun_eq_replicate, List.mem_replicate]
  have := collapsedLen_pos c hn
  constructor
  · exact fun h => h.2
  · exact fun h => ⟨by omega, h⟩

theorem mem_removeLong_aux : ∀ (n : Nat) (l : List Char), l.length ≤ n →
    ∀ a : Char, (a ∈ removeLongSymbolSequences l ↔ a ∈ l) := by
  intro n
  induction n with
  | zero =>
    intro l hl a
    have : l = [] := by
      cases l with
      | nil => rfl
      | cons c cs => simp at hl
    rw [this]
    rfl
  | succ n ih =>
    intro l hl a
    cases l with
    | nil => rfl
    | cons c cs =>
      rw [removeLong_cons]
      have hrest := takeRun_snd_length c cs
      have hmem := ih (takeRun c cs).2 (by simp at hl; omega) a
      have hl2 : c :: cs = c :: (List.replicate (takeRun c cs).1 c ++ (takeRun c cs).2) := by
        rw [← takeRun_spec]
      rw [List.mem_append, mem_emitRun (by omega : 1 ≤ 1 + (takeRun c cs).1), hmem]
      rw [hl2]
      simp only [List.mem_cons, List.mem_append, List.mem_replicate]
      constructor
      · rintro (h | h)
        · exact Or.inl h
        · exact Or.inr (Or.inr h)
      · rintro (h | h | h)
        · exact Or.inl h
        · exact Or.inl h.2
        · exact Or.inr h

theorem mem_removeLong (l : List Char) (a : Char) :
    a ∈ removeLongSymbolSequences l ↔ a ∈ l :=
  mem_removeLong_aux l.length l (Nat.le_refl _) a

theorem isOnlySymbols_false_iff (l : List Char) :
    isOnlySymbols l = false ↔ ∃ c ∈ l, (c != ' ' && isAlnumM c) = true := by
  simp only [isOnlySymbols]
  split
  · next h =>
    simp only [List.isEmpty_iff, List.filter_eq_nil_iff] at h
    constructor
    · intro hf; exact absurd hf (by simp)
    · rintro ⟨c, hc, hprop⟩
      simp only [Bool.and_eq_true] at hprop
      exact absurd (h c hc) (by simp [hprop.1])
  · simp only [Bool.not_eq_false', List.any_eq_true, List.mem_filter]
    constructor
    · rintro ⟨c, ⟨hc, hne⟩, halnum⟩
      exact ⟨c, hc, by simp [hne, halnum]⟩
    · rintro ⟨c, hc, hprop⟩
      simp only [Bool.and_eq_true] at hprop
      exact ⟨c, ⟨hc, hprop.1⟩, hprop.2⟩

/-- C6: the input sanitizer (symbol-only check, then repeat collapse) is
idempotent: `sanitize (sanitize x) = sanitize x` for every string `x`. -/
theorem sanitize_idempotent (x : List Char) :
    sanitizeInput (sanitizeInput x) = sanitizeInput x := by
  unfold sanitizeInput
  by_cases h : isOnlySymbols x = true
  · rw [if_pos h, if_pos (by decide : isOnlySymbols [] = true)]
  · have hx : isOnlySymbols x = false := by
      cases hval : isOnlySymbols x
      · rfl
      · exact absurd hval h
    rw [if_neg h]
    obtain ⟨c, hc, hprop⟩ := (isOnlySymbols_false_iff x).mp hx
    have h2 : isOnlySymbols (removeLongSymbolSequences x) = false :=
      (isOnlySymbols_false_iff _).mpr ⟨c, (mem_removeLong x c).mpr hc, hprop⟩
    rw [if_neg (by simp [h2]), removeLong_idem]

/-! ## Claim C3: the numeral expansion -/

theorem head?_append_of_ne_nil {u v : List Char} (h : u ≠ []) :
    (u ++ v).head? = u.head? := by
  cases u with
  | nil => exact absurd rfl h
  | cons c cs => rfl

theorem head?_ne_space {v : List Char} (h : v.head? ≠ some ' ') :
    ∀ y ∈ v.head?, y ≠ ' ' := by
  intro y hy hcontra
  rw [Option.mem_def] at hy
  rw [hcontra] at hy
  exact h hy

theorem getLast?_ne_space {v : List Char} (h : v.getLast? ≠ some ' ') :
    ∀ y ∈ v.getLast?, y ≠ ' ' := by
  intro y hy hcontra
  rw [Option.mem_def] at hy
  rw [hcontra] at hy
  exact h hy

theorem wordShaped_append_space {u v : List Char}
    (hu : wordShaped u) (hv : wordShaped v) : wordShaped (u ++ ' ' :: v) := by
  obtain ⟨hune, hud, ⟨huop, huch, hul⟩, huh⟩ := hu
  obtain ⟨hvne, hvd, ⟨hvop, hvch, hvl⟩, hvh⟩ := hv
  unfold isOnlyPlainSpace at hvop huop
  refine ⟨by simp, ?_, ⟨?_, ?_, ?_⟩, ?_⟩
  · simp only [List.all_append, List.all_cons, hud, hvd]
    decide
  · unfold isOnlyPlainSpace
    simp only [List.all_append, List.all_cons, huop, hvop]
    decide
  · rw [List.chain'_append]
    refine ⟨huch, ?_, ?_⟩
    · rw [List.chain'_cons']
      exact ⟨fun y hy => fun hc => (head?_ne_space hvh y hy) hc.2, hvch⟩
    · intro x hx y hy
      rw [List.head?_cons, Option.mem_def, Option.some.injEq] at hy
      intro hc
      exact (getLast?_ne_space hul x hx) hc.1
  · rw [getLast?_append_of_ne_nil (by simp), getLast?_cons_of_ne_nil hvne]
    exact hvl
  · rw [head?_append_of_ne_nil hune]
    exact huh

theorem russianUnits_wordShaped (k : Nat) (h1 : 1 ≤ k) (h : k < 20) :
    wordShaped (russianUnits k) := by
  interval_cases k <;> decide

theorem russianTens_wordShaped (k : Nat) (h1 : 2 ≤ k) (h : k ≤ 9) :
    wordShaped (russianTens k) := by
  interval_cases k <;> decide

theorem russianHundreds_wordShaped (k : Nat) (h1 : 1 ≤ k) (h : k ≤ 9) :
    wordShaped (russianHundreds k) := by
  interval_cases k <;> decide

/-- Everything `convert_russian_number` produces below one million is a
nonempty, digit-free, canonically spaced run of words. -/
theorem convertNumber_wordShaped : ∀ n : Nat, n < 1000000 →
    wordShaped (convertNumber n) := by
  intro n
  induction n using Nat.strong_induction_on with
  | _ n ih =>
    intro hn
    rw [convertNumber.eq_def]
    by_cases h0 : n = 0
    · rw [if_pos h0]; decide
    rw [if_neg h0]
    by_cases h20 : n < 20
    · rw [if_pos h20]
      exact russianUnits_wordShaped n (by omega) h20
    rw [if_neg h20]
    by_cases h100 : n < 100
    · rw [dif_pos h100]
      dsimp only
      by_cases hu : n % 10 = 0
      · rw [if_pos hu]
        exact russianTens_wordShaped (n / 10) (by omega) (by omega)
      · rw [if_neg hu]
        exact wordShaped_append_space
          (russianTens_wordShaped (n / 10) (by omega) (by omega))
          (russianUnits_wordShaped (n % 10) (by omega) (by omega))
    rw [dif_neg h100]
    by_cases h1000 : n < 1000
    · rw [dif_pos h1000]
      dsimp only
      by_cases hr : n % 100 = 0
      · rw [if_pos hr]
        exact russianHundreds_wordShaped (n / 100) (by omega) (by omega)
      · rw [if_neg hr]
        exact wordShaped_append_space
          (russianHundreds_wordShaped (n / 100) (by omega) (by omega))
          (ih (n % 100) (by omega) (by omega))
    rw [dif_neg h1000, dif_pos (by omega)]
    dsimp only
    by_cases hr : n % 1000 = 0
    · rw [if_pos hr]
      by_cases ht1 : n / 1000 = 1
      · rw [if_pos ht1]; decide
      rw [if_neg ht1]
      by_cases ht5 : n / 1000 < 5
      · rw [if_pos ht5]
        have heq : convertNumber (n / 1000) ++ str " тысячи" =
            convertNumber (n / 1000) ++ ' ' :: str "тысячи" := rfl
        rw [heq]
        exact wordShaped_append_space (ih (n / 1000) (by omega) (by omega)) (by decide)
      · rw [if_neg ht5]
        have heq : convertNumber (n / 1000) ++ str " тысяч" =
            convertNumber (n / 1000) ++ ' ' :: str "тысяч" := rfl
        rw [heq]
        exact wordShaped_append_space (ih (n / 1000) (by omega) (by omega)) (by decide)
    · rw [if_neg hr]
      by_cases ht1 : n / 1000 = 1
      · rw [if_pos ht1]
        have heq : str "тысяча " ++ convertNumber (n % 1000) =
            str "тысяча" ++ ' ' :: convertNumber (n % 1000) := rfl
        rw [heq]
        exact wordShaped_append_space (by decide) (ih (n % 1000) (by omega) (by omega))
      rw [if_neg ht1]
      by_cases ht5 : n / 1000 < 5
      · rw [if_pos ht5]
        have heq : convertNumber (n / 1000) ++ str " тысячи " ++ convertNumber (n % 1000) =
            convertNumber (n / 1000) ++ ' ' ::
              (str "тысячи" ++ ' ' :: convertNumber (n % 1000)) := by
          rw [List.append_assoc]
          exact rfl
        rw [heq]
        exact wordShaped_append_space (ih (n / 1000) (by omega) (by omega))
          (wordShaped_append_space (by decide) (ih (n % 1000) (by omega) (by omega)))
      · rw [if_neg ht5]
        have heq : convertNumber (n / 1000) ++ str " тысяч " ++ convertNumber (n % 1000) =
            convertNumber (n / 1000) ++ ' ' ::
              (str "тысяч" ++ ' ' :: convertNumber (n % 1000)) := by
          rw [List.append_assoc]
          exact rfl
        rw [heq]
        exact wordShaped_append_space (ih (n / 1000) (by omega) (by omega))
          (wordShaped_append_space (by decide) (ih (n % 1000) (by omega) (by omega)))

theorem isWordM_of_isDigit {c : Char} (h : c.isDigit = true) : isWordM c = true := by
  simp [isWordM, isAlnumM, Char.isAlphanum, h]

/-- The digit scanner computes the same result with any sufficient fuel. -/
theorem replaceNumbersGo_fuel : ∀ (f g : Nat) (prevW : Bool) (l : List Char),
    l.length ≤ f → l.length ≤ g →
    replaceNumbersGo f prevW l = replaceNumbersGo g prevW l := by
  intro f
  induction f with
  | zero =>
    intro g prevW l hf hg
    have : l = [] := by
      cases l with
      | nil => rfl
      | cons c cs => simp at hf
    rw [this]
    cases g <;> rfl
  | succ f ih =>
    intro g prevW l hf hg
    cases l with
    | nil => cases g <;> rfl
    | cons c cs =>
      cases g with
      | zero => simp at hg
      | succ g =>
        simp only [replaceNumbersGo]
        by_cases h : prevW = false ∧ c.isDigit
        · rw [if_pos h, if_pos h]
          have hlen : ((c :: cs).dropWhile Char.isDigit).length ≤ cs.length := by
            simp only [List.dropWhile_cons, h.2, if_pos]
            exact dropWhile_length_le _ _
          simp only [List.length_cons] at hf hg
          rw [ih g true _ (by omega) (by omega)]
        · rw [if_neg h, if_neg h]
          simp only [List.length_cons] at hf hg
          rw [ih g (isWordM c) cs (by omega) (by omega)]

/-- C3: a word-bounded run of decimal digits is replaced by a digit-free
spoken-word form when its value is at most 999999, is left verbatim when its
value is at least 1000000 (never an error in either case), and the scanner
substitutes exactly the word-bounded maximal digit runs: with a non-word
character before (`prevW = false`) and after (head of `v`) a digit run `ds`,
the run is rewritten through `convert_russian_number`, while a digit run with
a word character before it is emitted verbatim. -/
theorem numeral_expansion_spec :
    (∀ s : List Char, s ≠ [] → s.all Char.isDigit = true → digitsVal s ≤ 999999 →
      (convertRussianNumber s).all (fun c => ! c.isDigit) = true) ∧
    (∀ s : List Char, s.all Char.isDigit = true → 1000000 ≤ digitsVal s →
      convertRussianNumber s = s) ∧
    (∀ ds v : List Char, ds ≠ [] → ds.all Char.isDigit = true → headIsWord v = false →
      replaceNumbersGo ((ds ++ v).length) false (ds ++ v) =
        convertRussianNumber ds ++ replaceNumbersGo v.length true v) ∧
    (∀ ds v : List Char, ds.all Char.isDigit = true →
      replaceNumbersGo ((ds ++ v).length) true (ds ++ v) =
        ds ++ replaceNumbersGo v.length true v) := by
  refine ⟨?_, ?_, ?_, ?_⟩
  · intro s hne hdig hval
    have hparse : parseDigits s = some (digitsVal s) := by
      unfold parseDigits
      rw [if_pos ⟨hne, hdig⟩]
    rw [convertRussianNumber_of_parse (digitsVal s) hparse (by omega)]
    exact (convertNumber_wordShaped (digitsVal s) (by omega)).2.1
  · intro s hdig hval
    have hne : s ≠ [] := by
      intro h
      rw [h] at hval
      simp [digitsVal] at hval
    have hparse : parseDigits s = some (digitsVal s) := by
      unfold parseDigits
      rw [if_pos ⟨hne, hdig⟩]
    rw [convertRussianNumber, hparse]
    simp [show ¬ (digitsVal s < 1000000) by omega]
  · intro ds v hne hdig hhw
    have hvd : ∀ c, v.head? = some c → Char.isDigit c = false := by
      intro c hc
      by_contra hwc
      rw [Bool.not_eq_false] at hwc
      have hwrd : headIsWord v = true := by
        unfold headIsWord
        rw [hc]
        exact isWordM_of_isDigit hwc
      rw [hwrd] at hhw
      exact absurd hhw (by simp)
    cases ds with
    | nil => exact absurd rfl hne
    | cons d ds' =>
      have hd : d.isDigit = true := by
        simp only [List.all_cons, Bool.and_eq_true] at hdig
        exact hdig.1
      have hds' : ∀ c ∈ ds', Char.isDigit c = true := by
        simp only [List.all_cons, Bool.and_eq_true, List.all_eq_true] at hdig
        exact hdig.2
      simp only [List.cons_append, List.length_cons, replaceNumbersGo, List.append_eq]
      rw [if_pos (show True ∧ d.isDigit = true from ⟨trivial, hd⟩)]
      have htake : (d :: (ds' ++ v)).takeWhile Char.isDigit = d :: ds' := by
        simp only [List.takeWhile_cons, hd, if_pos]
        rw [takeWhile_append_of_all v hds', takeWhile_eq_nil_of_head hvd,
          List.append_nil]
      have hdrop : (d :: (ds' ++ v)).dropWhile Char.isDigit = v := by
        simp only [List.dropWhile_cons, hd, if_pos]
        rw [dropWhile_append_of_all v hds', dropWhile_eq_self_of_head hvd]
      rw [htake, hdrop, hhw]
      simp only [Bool.false_eq_true, if_false]
      rw [replaceNumbersGo_fuel ((ds' ++ v).length) v.length true v (by simp) (by omega)]
  · intro ds v hdig
    induction ds with
    | nil => simp
    | cons d ds' ih =>
      have hd : d.isDigit = true := by
        simp only [List.all_cons, Bool.and_eq_true] at hdig
        exact hdig.1
      have hds' : ds'.all Char.isDigit = true := by
        simp only [List.all_cons, Bool.and_eq_true] at hdig
        exact hdig.2
      simp only [List.cons_append, List.length_cons, replaceNumbersGo, List.append_eq]
      rw [if_neg (by simp), isWordM_of_isDigit hd]
      exact congrArg _ (ih hds')

theorem numeral_expansion_spec_witness :
    (convertRussianNumber (str "12")).all (fun c => ! c.isDigit) = true ∧
    convertRussianNumber (str "1234567") = str "1234567" ∧
    replaceNumbersGo ((str "7" ++ str " x").length) false (str "7" ++ str " x") =
      convertRussianNumber (str "7") ++
        replaceNumbersGo (str " x").length true (str " x") :=
  ⟨numeral_expansion_spec.1 (str "12") (by decide) (by decide) (by decide),
   numeral_expansion_spec.2.1 (str "1234567") (by decide) (by decide),
   numeral_expansion_spec.2.2.1 (str "7") (str " x") (by decide) (by decide)
     (by decide)⟩

/-! ## Claim C8: abbreviation expansion and substitution order -/

/-- Fuel irrelevance for the abbreviation-pass scanner: any fuel of at least
the input length computes the same scan. -/
theorem subAbbrevGo_fuel (k0 : Char) (ks repl : List Char) :
    ∀ (f g : Nat) (prevW : Bool) (l : List Char),
    l.length ≤ f → l.length ≤ g →
    subAbbrevGo k0 ks repl f prevW l = subAbbrevGo k0 ks repl g prevW l := by
  intro f
  induction f with
  | zero =>
    intro g prevW l hf hg
    have : l = [] := by
      cases l with
      | nil => rfl
      | cons c cs => simp at hf
    rw [this]
    cases g <;> rfl
  | succ f ih =>
    intro g prevW l hf hg
    cases l with
    | nil => cases g <;> rfl
    | cons c cs =>
      cases g with
      | zero => simp at hg
      | succ g =>
        simp only [subAbbrevGo]
        simp only [List.length_cons] at hf hg
        by_cases h : prevW = false ∧ toLowerM c = toLowerM k0
        · rw [if_pos h, if_pos h]
          cases hsp : splitCI ks cs with
          | some p =>
            obtain ⟨m, rest⟩ := p
            dsimp only
            have hr : rest.length ≤ cs.length := splitCI_rest_length hsp
            by_cases hw : headIsWord rest = true
            · rw [if_pos hw, if_pos hw, ih g (isWordM c) cs (by omega) (by omega)]
            · rw [if_neg hw, if_neg hw,
                ih g (isWordM (m.getLastD c)) rest (by omega) (by omega)]
          | none =>
            rw [ih g (isWordM c) cs (by omega) (by omega)]
        · rw [if_neg h, if_neg h, ih g (isWordM c) cs (by omega) (by omega)]

/-- A successful case-insensitive prefix match survives extending the text on
the right. -/
theorem splitCI_extend (w : List Char) : ∀ {ks cs m rest : List Char},
    splitCI ks cs = some (m, rest) → splitCI ks (cs ++ w) = some (m, rest ++ w) := by
  intro ks
  induction ks with
  | nil =>
    intro cs m rest h
    simp only [splitCI, Option.some.injEq, Prod.mk.injEq] at h
    simp [splitCI, ← h.1, ← h.2]
  | cons k ks ih =>
    intro cs m rest h
    match cs with
    | [] => simp [splitCI] at h
    | c :: cs' =>
      simp only [List.cons_append, List.append_eq, splitCI] at h ⊢
      split at h
      · next hfold =>
        rw [if_pos hfold]
        split at h
        · next m' rest' heq =>
          simp only [Option.some.injEq, Prod.mk.injEq] at h
          rw [ih heq]
          simp [← h.1, ← h.2]
        · exact absurd h (by simp)
      · exact absurd h (by simp)

/-- A failed case-insensitive prefix match stays failed under any right
extension of the text, provided the failure was a genuine character mismatch
and not the text running out in the middle of the pattern. -/
theorem splitCI_none_extend (w : List Char) : ∀ (ks cs : List Char),
    splitCI ks cs = none →
    ¬(cs.length < ks.length ∧ (splitCI cs ks).isSome = true) →
    splitCI ks (cs ++ w) = none := by
  intro ks
  induction ks with
  | nil =>
    intro cs h _
    simp [splitCI] at h
  | cons k ks ih =>
    intro cs h hspan
    match cs with
    | [] =>
      exfalso
      apply hspan
      exact ⟨by simp, by simp [splitCI]⟩
    | c :: cs' =>
      simp only [List.cons_append, List.append_eq, splitCI] at h ⊢
      split at h
      · next hfold =>
        rw [if_pos hfold]
        have hnone : splitCI ks cs' = none := by
          cases hq : splitCI ks cs' with
          | none => rfl
          | some p =>
            obtain ⟨m, r⟩ := p
            rw [hq] at h
            simp at h
        have hspan' : ¬(cs'.length < ks.length ∧ (splitCI cs' ks).isSome = true) := by
          rintro ⟨h1, h2⟩
          apply hspan
          refine ⟨by simpa using Nat.succ_lt_succ h1, ?_⟩
          simp only [splitCI, if_pos hfold.symm]
          cases hq : splitCI cs' ks with
          | some p =>
            obtain ⟨m, r⟩ := p
            simp
          | none =>
            rw [hq] at h2
            simp at h2
        rw [ih cs' hnone hspan']
      · next hfold =>
        rw [if_neg hfold]

/-- The word-character test of the first character ignores what stands after
a nonempty list. -/
theorem headIsWord_append {rest : List Char} (w : List Char) (h : rest ≠ []) :
    headIsWord (rest ++ w) = headIsWord rest := by
  cases rest with
  | nil => exact absurd rfl h
  | cons c cs => simp [headIsWord]

/-- Unrolling the scanner state across the first emitted character. -/
theorem endState_cons (pw : Bool) (c : Char) (v : List Char) :
    endState pw (c :: v) = endState (isWordM c) v := by
  cases v with
  | nil => simp [endState]
  | cons d vs =>
    simp only [endState, List.getLast?_cons_cons]
    cases hq : (d :: vs).getLast? with
    | none => simp at hq
    | some x => rfl

/-- Inertness with the permissive initial lookbehind state `false` implies
inertness with any initial state. -/
theorem keyInertGo_mono (key : List Char) (pw : Bool) (v : List Char)
    (h : keyInertGo key false v = true) : keyInertGo key pw v = true := by
  cases v with
  | nil => rfl
  | cons c cs =>
    simp only [keyInertGo, Bool.and_eq_true, Bool.or_eq_true, Bool.false_or] at h ⊢
    exact ⟨Or.inr h.1, h.2⟩

/-- The no-double-substitution bridge: if `key` is inert on `v`, then for
every input in which `v` stands — any lookbehind state `pw` at its left edge
and any text `w` to its right — the substitution pass for `key` copies `v`
verbatim and continues scanning on `w` alone.  In particular the pass never
rewrites any part of `v`. -/
theorem keyInert_pass (k0 : Char) (ks repl : List Char) :
    ∀ (v : List Char) (pw : Bool) (w : List Char) (fuel : Nat),
      keyInertGo (k0 :: ks) pw v = true →
      (v ++ w).length ≤ fuel →
      subAbbrevGo k0 ks repl fuel pw (v ++ w) =
        v ++ subAbbrevGo k0 ks repl w.length (endState pw v) w := by
  intro v
  induction v with
  | nil =>
    intro pw w fuel _ hlen
    simp only [List.nil_append, endState]
    exact subAbbrevGo_fuel k0 ks repl fuel w.length pw w (by simpa using hlen) le_rfl
  | cons c v' ih =>
    intro pw w fuel hinert hlen
    cases fuel with
    | zero =>
      simp only [List.cons_append, List.length_cons] at hlen
      omega
    | succ f =>
      simp only [keyInertGo, Bool.and_eq_true, Bool.or_eq_true] at hinert
      obtain ⟨hsafe, hrest⟩ := hinert
      have hlen' : (v' ++ w).length ≤ f := by
        simp only [List.cons_append, List.length_cons] at hlen
        omega
      have hih := ih (isWordM c) w f hrest hlen'
      simp only [List.cons_append, subAbbrevGo, List.append_eq]
      rw [endState_cons]
      by_cases hpw : pw = true
      · rw [if_neg (by simp [hpw])]
        rw [hih]
      · have hpwf : pw = false := by
          cases pw with
          | false => rfl
          | true => exact absurd rfl hpw
        rcases hsafe with hsafe | hsafe
        · exact absurd hsafe hpw
        · by_cases hfold : toLowerM c = toLowerM k0
          · rw [if_pos ⟨hpwf, hfold⟩]
            unfold keySafeAt at hsafe
            cases hsp : splitCI (k0 :: ks) (c :: v') with
            | some p =>
              rw [hsp] at hsafe
              obtain ⟨m0, rest0⟩ := p
              dsimp only at hsafe
              have hsp' : ∃ m1, splitCI ks v' = some (m1, rest0) := by
                simp only [splitCI, if_pos hfold] at hsp
                cases hq : splitCI ks v' with
                | some q =>
                  obtain ⟨m1, r1⟩ := q
                  rw [hq] at hsp
                  simp only [Option.some.injEq, Prod.mk.injEq] at hsp
                  exact ⟨m1, by rw [hsp.2]⟩
                | none =>
                  rw [hq] at hsp
                  simp at hsp
              obtain ⟨m1, hm1⟩ := hsp'
              rw [splitCI_extend w hm1]
              dsimp only
              have hr0ne : rest0 ≠ [] := by
                intro he
                rw [he] at hsafe
                simp [headIsWord] at hsafe
              rw [headIsWord_append w hr0ne, if_pos hsafe]
              rw [hih]
            | none =>
              rw [hsp] at hsafe
              dsimp only at hsafe
              simp only [Bool.not_eq_true', Bool.and_eq_false_iff,
                decide_eq_false_iff_not] at hsafe
              have hnone : splitCI ks v' = none := by
                simp only [splitCI, if_pos hfold] at hsp
                cases hq : splitCI ks v' with
                | some q =>
                  obtain ⟨m1, r1⟩ := q
                  rw [hq] at hsp
                  simp at hsp
                | none => rfl
              have hspan : ¬(v'.length < ks.length ∧ (splitCI v' ks).isSome = true) := by
                rintro ⟨h1, h2⟩
                rcases hsafe with hs | hs
                · exact hs (by simpa using Nat.succ_lt_succ h1)
                · simp only [splitCI, if_pos hfold.symm] at hs
                  cases hq : splitCI v' ks with
                  | some q =>
                    obtain ⟨m1, r1⟩ := q
                    rw [hq] at hs
                    simp at hs
                  | none =>
                    rw [hq] at h2
                    simp at h2
              rw [splitCI_none_extend w ks v' hnone hspan]
              rw [hih]
          · rw [if_neg (by rintro ⟨_, hc⟩; exact hfold hc)]
            rw [hih]

/-- Over all pairs of table entries whose keys overlap — the shorter key a
case-insensitive substring of the longer key — the shorter key is inert on
the longer key's replacement text (checked for all 87 x 87 pairs). -/
theorem overlap_inert :
    ∀ a ∈ sortedAbbrevs, ∀ b ∈ sortedAbbrevs,
      b.1.length < a.1.length → containsFold b.1 a.1 = true →
      keyInert b.1 a.2 = true := by decide

/-- C8: the substitution passes run in descending key-length order (the
sorted table is length-sorted, so on an occurrence matched by both keys of an
overlapping pair the longer key's pass runs first); expanding `"т.д."`
produces `"так далее"` and expanding `"и т.д."` yields exactly
`"и так далее"` (also through the whole Russian conversion); and for every
pair of table entries whose keys overlap — the shorter key a case-insensitive
substring of the longer key — and for every input, no double substitution
happens: wherever the longer key's replacement text stands (any lookbehind
state `pw` on its left, any text `w` on its right), the shorter key's pass
copies the replacement verbatim and substitutes only beyond it, so the
shorter key is never applied to an occurrence the longer key has already
rewritten. -/
theorem abbreviation_expansion_spec :
    List.Pairwise (fun a b : List Char × List Char => b.1.length ≤ a.1.length)
      sortedAbbrevs ∧
    applyAbbreviations (str "т.д.") = str "так далее" ∧
    applyAbbreviations (str "и т.д.") = str "и так далее" ∧
    simpleNumberConversionRussian (str "и т.д.") = str "и так далее" ∧
    (∀ a ∈ sortedAbbrevs, ∀ b ∈ sortedAbbrevs,
      b.1.length < a.1.length → containsFold b.1 a.1 = true →
      ∀ (k0 : Char) (ks : List Char), b.1 = k0 :: ks →
      ∀ (pw : Bool) (w : List Char) (fuel : Nat), (a.2 ++ w).length ≤ fuel →
        subAbbrevGo k0 ks b.2 fuel pw (a.2 ++ w) =
          a.2 ++ subAbbrevGo k0 ks b.2 w.length (endState pw a.2) w) := by
  refine ⟨by decide, by decide, by decide, by decide, ?_⟩
  intro a ha b hb hlt hcont k0 ks hkey pw w fuel hfuel
  have hin : keyInert b.1 a.2 = true := overlap_inert a ha b hb hlt hcont
  rw [hkey] at hin
  exact keyInert_pass k0 ks b.2 a.2 pw w fuel (keyInertGo_mono _ pw _ hin) hfuel

/-- Witness: the concrete overlapping pair `'и т.д.'`/`'т.д.'` at a concrete
context instantiates every hypothesis of the C8 theorem. -/
theorem abbreviation_expansion_spec_witness :
    subAbbrevGo 'т' (str ".д.") (str "так далее")
        (str "и так далее" ++ str " и т.д.").length false
        (str "и так далее" ++ str " и т.д.") =
      str "и так далее" ++ subAbbrevGo 'т' (str ".д.") (str "так далее")
        (str " и т.д.").length (endState false (str "и так далее")) (str " и т.д.") :=
  abbreviation_expansion_spec.2.2.2.2
    (str "и т.д.", str "и так далее") (by decide)
    (str "т.д.", str "так далее") (by decide)
    (by decide) (by decide) 'т' (str ".д.") (by decide)
    false (str " и т.д.") (str "и так далее" ++ str " и т.д.").length (by decide)

/-! ## Claim C7: yofication preserves the whitespace/punctuation skeleton -/

theorem pyIsAlpha_iff {w : List Char} :
    pyIsAlpha w = true ↔ w ≠ [] ∧ ∀ c ∈ w, isAlphaM c = true := by
  unfold pyIsAlpha
  cases w with
  | nil => simp
  | cons c cs => simp [List.all_eq_true]

theorem tokenizeGo_flatten : ∀ (fuel : Nat) (l : List Char), l.length ≤ fuel →
    (tokenizeGo fuel l).flatten = l := by
  intro fuel
  induction fuel with
  | zero =>
    intro l h
    cases l with
    | nil => rfl
    | cons c cs => simp at h
  | succ fuel ih =>
    intro l h
    cases l with
    | nil => rfl
    | cons c cs =>
      simp only [List.length_cons, Nat.succ_le_succ_iff] at h
      simp only [tokenizeGo]
      split_ifs with h1 h2 <;>
        · simp only [List.flatten_cons]
          rw [ih _ (le_trans (dropWhile_length_le _ _) h)]
          simp [List.takeWhile_append_dropWhile]

theorem lookupYo_none (dict : List (List Char × List Char))
    (hdict : ∀ kv ∈ dict, yoWordEntry kv) {t : List Char}
    (ht : pyIsAlpha t = false) : lookupYo dict t = none := by
  induction dict with
  | nil => rfl
  | cons kv d ih =>
    obtain ⟨k, v⟩ := kv
    have hk := hdict (k, v) (by simp)
    unfold lookupYo
    rw [if_neg, ih (fun kv hkv => hdict kv (by simp [hkv]))]
    intro hkt
    have : pyIsAlpha k = true := pyIsAlpha_iff.mpr
      ⟨hk.1, by simpa [List.all_eq_true] using hk.2.1⟩
    rw [hkt, ht] at this
    exact absurd this (by simp)

theorem applyAdditionalRules_not_alpha {w : List Char}
    (hw : pyIsAlpha w = false) : applyAdditionalRules w = w := by
  unfold applyAdditionalRules
  rw [if_pos (by simp [hw])]

theorem pyIsAlpha_mapReplace {w : List Char} {a b : Char}
    (hw : pyIsAlpha w = true) (hb : isAlphaM b = true) :
    pyIsAlpha (mapReplaceChar a b w) = true := by
  obtain ⟨hne, hall⟩ := pyIsAlpha_iff.mp hw
  refine pyIsAlpha_iff.mpr ⟨by simpa [mapReplaceChar] using hne, ?_⟩
  intro c hc
  unfold mapReplaceChar at hc
  rw [List.mem_map] at hc
  obtain ⟨d, hd, hdc⟩ := hc
  by_cases hda : d = a
  · rw [← hdc, if_pos hda]
    exact hb
  · rw [← hdc, if_neg hda]
    exact hall d hd

theorem splitExact_eq_append {ks cs rest : List Char}
    (h : splitExact ks cs = some rest) : cs = ks ++ rest := by
  induction ks generalizing cs with
  | nil =>
    simp only [splitExact, Option.some.injEq] at h
    simp [← h]
  | cons k ks ih =>
    match cs with
    | [] => simp [splitExact] at h
    | c :: cs' =>
      simp only [splitExact] at h
      split at h
      · next hck =>
        rw [List.cons_append, hck]
        exact congrArg _ (ih h)
      · exact absurd h (by simp)

theorem strReplaceGo_all {p : Char → Bool} (k0 : Char) (ks repl : List Char)
    (hrepl : ∀ c ∈ repl, p c = true) :
    ∀ (fuel : Nat) (l : List Char), (∀ c ∈ l, p c = true) →
      ∀ c ∈ strReplaceGo k0 ks repl fuel l, p c = true := by
  intro fuel
  induction fuel with
  | zero =>
    intro l hl c hc
    cases l <;> simp [strReplaceGo] at hc
  | succ fuel ih =>
    intro l hl c hc
    cases l with
    | nil => simp [strReplaceGo] at hc
    | cons d cs =>
      have hd := hl d (by simp)
      have hcs : ∀ c ∈ cs, p c = true := fun c hc => hl c (by simp [hc])
      simp only [strReplaceGo] at hc
      by_cases hdk : d = k0
      · rw [if_pos hdk] at hc
        cases hse : splitExact ks cs with
        | some rest =>
          rw [hse] at hc
          simp only [List.mem_append] at hc
          rcases hc with hc | hc
          · exact hrepl c hc
          · refine ih rest ?_ c hc
            intro e he
            exact hcs e (by rw [splitExact_eq_append hse]; simp [he])
        | none =>
          rw [hse] at hc
          rcases List.mem_cons.mp hc with hc | hc
          · rw [hc]; exact hd
          · exact ih cs hcs c hc
      · rw [if_neg hdk] at hc
        rcases List.mem_cons.mp hc with hc | hc
        · rw [hc]; exact hd
        · exact ih cs hcs c hc

theorem strReplaceGo_ne_nil (k0 : Char) (ks repl : List Char)
    (hrepl : repl ≠ []) : ∀ (fuel : Nat) (l : List Char), l ≠ [] →
      l.length ≤ fuel → strReplaceGo k0 ks repl fuel l ≠ [] := by
  intro fuel l hl hlen
  cases fuel with
  | zero =>
    cases l with
    | nil => exact absurd rfl hl
    | cons c cs => simp at hlen
  | succ fuel =>
    cases l with
    | nil => exact absurd rfl hl
    | cons d cs =>
      simp only [strReplaceGo]
      by_cases hdk : d = k0
      · rw [if_pos hdk]
        cases hse : splitExact ks cs with
        | some rest => simp [hrepl]
        | none => simp
      · rw [if_neg hdk]
        simp

theorem pyIsAlpha_strReplaceGo {w : List Char} (k0 : Char) (ks repl : List Char)
    (hw : pyIsAlpha w = true) (hrne : repl ≠ [])
    (hralpha : ∀ c ∈ repl, isAlphaM c = true) :
    pyIsAlpha (strReplaceGo k0 ks repl w.length w) = true := by
  obtain ⟨hne, hall⟩ := pyIsAlpha_iff.mp hw
  exact pyIsAlpha_iff.mpr
    ⟨strReplaceGo_ne_nil k0 ks repl hrne w.length w hne (Nat.le_refl _),
     strReplaceGo_all k0 ks repl hralpha w.length w hall⟩

theorem subLastE_ne_nil {w : List Char} (h : w ≠ []) : subLastE w ≠ [] := by
  cases w with
  | nil => exact absurd rfl h
  | cons c cs =>
    unfold subLastE
    split <;> simp

theorem subLastE_all {w : List Char} (hw : ∀ c ∈ w, isAlphaM c = true) :
    ∀ c ∈ subLastE w, isAlphaM c = true := by
  induction w with
  | nil => simp [subLastE]
  | cons d cs ih =>
    have hd := hw d (by simp)
    have hcs : ∀ c ∈ cs, isAlphaM c = true := fun c hc => hw c (by simp [hc])
    unfold subLastE
    split
    · intro c hc
      rcases List.mem_cons.mp hc with hc | hc
      · rw [hc]; decide
      · exact hcs c hc
    · intro c hc
      rcases List.mem_cons.mp hc with hc | hc
      · rw [hc]; exact hd
      · exact ih hcs c hc

theorem pyIsAlpha_subLastE {w : List Char} (hw : pyIsAlpha w = true) :
    pyIsAlpha (subLastE w) = true := by
  obtain ⟨hne, hall⟩ := pyIsAlpha_iff.mp hw
  exact pyIsAlpha_iff.mpr ⟨subLastE_ne_nil hne, subLastE_all hall⟩

theorem applyAdditionalRules_alpha {w : List Char} (hw : pyIsAlpha w = true) :
    pyIsAlpha (applyAdditionalRules w) = true := by
  unfold applyAdditionalRules
  rw [if_neg (by simp [hw])]
  split_ifs with h1 h2 h3 h4 h5 h6 h7
  · exact pyIsAlpha_mapReplace hw (by decide)
  · exact pyIsAlpha_mapReplace hw (by decide)
  · decide
  · decide
  · exact pyIsAlpha_mapReplace hw (by decide)
  · exact pyIsAlpha_strReplaceGo 'е' (str "л") (str "ёл") hw (by decide) (by decide)
  · exact pyIsAlpha_subLastE hw
  · exact hw

theorem lookupYo_mem (dict : List (List Char × List Char)) (t v : List Char)
    (h : lookupYo dict t = some v) : ∃ k, (k, v) ∈ dict := by
  induction dict with
  | nil => simp [lookupYo] at h
  | cons kv d ih =>
    obtain ⟨k, w⟩ := kv
    unfold lookupYo at h
    split at h
    · simp only [Option.some.injEq] at h
      exact ⟨k, by simp [← h]⟩
    · obtain ⟨k2, hk2⟩ := ih h
      exact ⟨k2, by simp [hk2]⟩

theorem yoficateToken_not_alpha (dict : List (List Char × List Char))
    (hdict : ∀ kv ∈ dict, yoWordEntry kv) {t : List Char}
    (ht : pyIsAlpha t = false) : yoficateToken dict t = t := by
  unfold yoficateToken
  rw [lookupYo_none dict hdict ht]
  exact applyAdditionalRules_not_alpha ht

theorem yoficateToken_alpha (dict : List (List Char × List Char))
    (hdict : ∀ kv ∈ dict, yoWordEntry kv) {t : List Char}
    (ht : pyIsAlpha t = true) : pyIsAlpha (yoficateToken dict t) = true := by
  unfold yoficateToken
  cases hlk : lookupYo dict t with
  | none => exact applyAdditionalRules_alpha ht
  | some v =>
    obtain ⟨k, hk⟩ := lookupYo_mem dict t v hlk
    have hv := hdict (k, v) hk
    exact pyIsAlpha_iff.mpr ⟨hv.2.2.1, by simpa [List.all_eq_true] using hv.2.2.2⟩

/-- C7: yofication transforms only alphabetic tokens and never changes token
boundaries, whitespace, or non-alphabetic characters: the tokenizer's maximal
runs concatenate back to the input exactly, `yoficate` is precisely the
token-wise map over that decomposition, every non-alphabetic token maps to
itself, and every alphabetic token maps to a nonempty all-alphabetic token
(so the whitespace/punctuation skeleton survives intact). -/
theorem yofication_skeleton (dict : List (List Char × List Char))
    (hdict : ∀ kv ∈ dict, yoWordEntry kv) (text : List Char) :
    (tokenize text).flatten = text ∧
    (dict ≠ [] →
      yoficate dict text = ((tokenize text).map (yoficateToken dict)).flatten) ∧
    (∀ t, pyIsAlpha t = false → yoficateToken dict t = t) ∧
    (∀ t, pyIsAlpha t = true → pyIsAlpha (yoficateToken dict t) = true) := by
  refine ⟨tokenizeGo_flatten text.length text (Nat.le_refl _), ?_, ?_, ?_⟩
  · intro hne
    unfold yoficate
    rw [if_neg (by simp [hne])]
  · intro t ht
    exact yoficateToken_not_alpha dict hdict ht
  · intro t ht
    exact yoficateToken_alpha dict hdict ht

theorem yofication_skeleton_witness :
    (tokenize (str "ёж, еще!")).flatten = str "ёж, еще!" ∧
    yoficateToken [(str "елка", str "ёлка")] (str ", ") = str ", " ∧
    pyIsAlpha (yoficateToken [(str "елка", str "ёлка")] (str "еще")) = true := by
  have h := yofication_skeleton [(str "елка", str "ёлка")] (by decide) (str "ёж, еще!")
  exact ⟨h.1, h.2.2.1 (str ", ") (by decide), h.2.2.2 (str "еще") (by decide)⟩

/-! ## Claim C10: whitespace normalization inside the pipeline -/

theorem suffClean_nil : suffClean ([] : List Char) :=
  ⟨rfl, List.chain'_nil, by simp⟩

theorem cleanSpaced_nil : cleanSpaced ([] : List Char) :=
  ⟨suffClean_nil, by simp⟩

theorem suffClean_suffix {u v : List Char} (h : suffClean (u ++ v)) :
    suffClean v := by
  obtain ⟨hop, hch, hlast⟩ := h
  refine ⟨?_, (List.chain'_append.mp hch).2.1, ?_⟩
  · unfold isOnlyPlainSpace at *
    rw [List.all_append, Bool.and_eq_true] at hop
    exact hop.2
  · cases hv : v with
    | nil => simp
    | cons d ds =>
      rw [← hv]
      rw [getLast?_append_of_ne_nil (by simp [hv])] at hlast
      exact hlast

theorem isPySpace_eq_space {l : List Char} (hop : isOnlyPlainSpace l = true)
    {c : Char} (hc : c ∈ l) (hs : isPySpace c = true) : c = ' ' := by
  unfold isOnlyPlainSpace at hop
  rw [List.all_eq_true] at hop
  have := hop c hc
  rw [hs] at this
  simpa using this

theorem clean_step_emit (tok rest : List Char) {out' : List Char}
    (hsplit : suffClean (tok ++ rest)) (htok : tok ≠ [])
    (hout : suffClean out') (hempty : out' = [] ↔ rest = [])
    (hhead : out'.head? = some ' ' → rest.head? = some ' ') :
    suffClean (tok ++ out') ∧ (tok ++ out' = [] ↔ tok ++ rest = []) ∧
    ((tok ++ out').head? = some ' ' → (tok ++ rest).head? = some ' ') := by
  obtain ⟨hop, hch, hlast⟩ := hsplit
  obtain ⟨hop', hch', hlast'⟩ := hout
  have hchtok : tok.Chain' noSpacePair := (List.chain'_append.mp hch).1
  have hseam := (List.chain'_append.mp hch).2.2
  refine ⟨⟨?_, ?_, ?_⟩, by simp [htok], ?_⟩
  · unfold isOnlyPlainSpace at *
    rw [List.all_append, Bool.and_eq_true] at hop ⊢
    exact ⟨hop.1, hop'⟩
  · rw [List.chain'_append]
    refine ⟨hchtok, hch', ?_⟩
    intro x hx y hy hcontra
    have hy' : out'.head? = some ' ' := by
      rw [Option.mem_def] at hy
      rw [hy, hcontra.2]
    have hr := hhead hy'
    exact hseam x hx ' ' (by rw [Option.mem_def, hr]) ⟨hcontra.1, rfl⟩
  · cases hoe : out' with
    | nil =>
      have hre : rest = [] := hempty.mp hoe
      rw [hre] at hlast
      simpa using hlast
    | cons d ds =>
      rw [← hoe, getLast?_append_of_ne_nil (by simp [hoe])]
      exact hlast'
  · rw [head?_append_of_ne_nil htok, head?_append_of_ne_nil htok]
    exact id

theorem clean_step_repl {repl out' : List Char}
    (hrepl : cleanSpaced repl) (hrne : repl ≠ []) (hout : suffClean out') :
    suffClean (repl ++ out') ∧ repl ++ out' ≠ [] ∧
    (repl ++ out').head? ≠ some ' ' := by
  obtain ⟨⟨hop, hch, hlast⟩, hhead⟩ := hrepl
  obtain ⟨hop', hch', hlast'⟩ := hout
  refine ⟨⟨?_, ?_, ?_⟩, by simp [hrne], ?_⟩
  · unfold isOnlyPlainSpace at *
    rw [List.all_append, Bool.and_eq_true]
    exact ⟨hop, hop'⟩
  · rw [List.chain'_append]
    refine ⟨hch, hch', ?_⟩
    intro x hx y hy hcontra
    rw [Option.mem_def] at hx
    rw [hcontra.1] at hx
    exact hlast hx
  · cases hoe : out' with
    | nil =>
      rw [List.append_nil]
      exact hlast
    | cons d ds =>
      rw [← hoe, getLast?_append_of_ne_nil (by simp [hoe])]
      exact hlast'
  · rw [head?_append_of_ne_nil hrne]
    exact hhead

theorem not_pySpace_of_digit {c : Char} (h : c.isDigit = true) :
    isPySpace c = false := by
  by_contra hc
  rw [Bool.not_eq_false] at hc
  unfold isPySpace at hc
  simp only [Bool.or_eq_true, decide_eq_true_eq] at hc
  rcases hc with ((((h1 | h1) | h1) | h1) | h1) | h1 <;>
    (subst h1; exact absurd h (by decide))

theorem not_pySpace_of_alpha {c : Char} (h : isAlphaM c = true) :
    isPySpace c = false := by
  by_contra hc
  rw [Bool.not_eq_false] at hc
  unfold isPySpace at hc
  simp only [Bool.or_eq_true, decide_eq_true_eq] at hc
  rcases hc with ((((h1 | h1) | h1) | h1) | h1) | h1 <;>
    (subst h1; exact absurd h (by decide))

theorem chain'_of_no_space {l : List Char} (h : ∀ c ∈ l, c ≠ ' ') :
    l.Chain' noSpacePair := by
  induction l with
  | nil => exact List.chain'_nil
  | cons c cs ih =>
    rw [List.chain'_cons']
    exact ⟨fun y hy hc => h c (by simp) hc.1,
      ih (fun d hd => h d (by simp [hd]))⟩

theorem cleanSpaced_of_no_ws {l : List Char}
    (h : ∀ c ∈ l, isPySpace c = false) : cleanSpaced l := by
  have hns : ∀ c ∈ l, c ≠ ' ' := by
    intro c hc he
    have := h c hc
    rw [he] at this
    exact absurd this (by decide)
  refine ⟨⟨?_, chain'_of_no_space hns, ?_⟩, ?_⟩
  · unfold isOnlyPlainSpace
    rw [List.all_eq_true]
    intro c hc
    simp [h c hc]
  · intro hl
    exact hns ' ' (List.mem_of_mem_getLast? (by rw [Option.mem_def, hl])) rfl
  · intro hl
    exact hns ' ' (List.mem_of_mem_head? (by rw [Option.mem_def, hl])) rfl

theorem convertRussianNumber_clean {s : List Char} (hne : s ≠ [])
    (hdig : s.all Char.isDigit = true) :
    cleanSpaced (convertRussianNumber s) ∧ convertRussianNumber s ≠ [] := by
  have hparse : parseDigits s = some (digitsVal s) := by
    unfold parseDigits
    rw [if_pos ⟨hne, hdig⟩]
  by_cases hv : digitsVal s < 1000000
  · rw [convertRussianNumber_of_parse (digitsVal s) hparse hv]
    have hws := convertNumber_wordShaped (digitsVal s) hv
    exact ⟨hws.2.2, hws.1⟩
  · have heq : convertRussianNumber s = s := by
      unfold convertRussianNumber
      rw [hparse]
      dsimp only
      rw [if_neg hv]
    rw [heq]
    refine ⟨cleanSpaced_of_no_ws ?_, hne⟩
    intro c hc
    rw [List.all_eq_true] at hdig
    exact not_pySpace_of_digit (hdig c hc)

theorem replaceNumbersGo_clean :
    ∀ (fuel : Nat) (prevW : Bool) (l : List Char), l.length ≤ fuel → suffClean l →
      suffClean (replaceNumbersGo fuel prevW l) ∧
      (replaceNumbersGo fuel prevW l = [] ↔ l = []) ∧
      ((replaceNumbersGo fuel prevW l).head? = some ' ' → l.head? = some ' ') := by
  intro fuel
  induction fuel with
  | zero =>
    intro prevW l hlen hcl
    cases l with
    | nil => exact ⟨suffClean_nil, by simp [replaceNumbersGo], by simp [replaceNumbersGo]⟩
    | cons c cs => simp at hlen
  | succ fuel ih =>
    intro prevW l hlen hcl
    cases l with
    | nil => exact ⟨suffClean_nil, by simp [replaceNumbersGo], by simp [replaceNumbersGo]⟩
    | cons c cs =>
      simp only [List.length_cons, Nat.succ_le_succ_iff] at hlen
      simp only [replaceNumbersGo]
      by_cases hcond : prevW = false ∧ c.isDigit
      · rw [if_pos hcond]
        have hsplit : (c :: cs).takeWhile Char.isDigit ++
            (c :: cs).dropWhile Char.isDigit = c :: cs :=
          List.takeWhile_append_dropWhile _ _
        have hrunne : (c :: cs).takeWhile Char.isDigit ≠ [] := by
          simp [List.takeWhile_cons, hcond.2]
        have hrestlen : ((c :: cs).dropWhile Char.isDigit).length ≤ fuel := by
          have h1 : ((c :: cs).dropWhile Char.isDigit).length ≤ cs.length := by
            simp only [List.dropWhile_cons, hcond.2, if_pos]
            exact dropWhile_length_le _ _
          omega
        have hrestclean : suffClean ((c :: cs).dropWhile Char.isDigit) := by
          refine suffClean_suffix (u := (c :: cs).takeWhile Char.isDigit) ?_
          rw [hsplit]
          exact hcl
        have hih := ih true _ hrestlen hrestclean
        by_cases hw : headIsWord ((c :: cs).dropWhile Char.isDigit) = true
        · rw [if_pos hw]
          have h := clean_step_emit ((c :: cs).takeWhile Char.isDigit)
            ((c :: cs).dropWhile Char.isDigit)
            (by rw [hsplit]; exact hcl) hrunne hih.1 hih.2.1 hih.2.2
          rw [hsplit] at h
          exact h
        · rw [if_neg hw]
          have hrundig : ((c :: cs).takeWhile Char.isDigit).all Char.isDigit = true := by
            rw [List.all_eq_true]
            intro d hd
            exact List.mem_takeWhile_imp hd
          have hcrn := convertRussianNumber_clean hrunne hrundig
          have h := clean_step_repl hcrn.1 hcrn.2 hih.1
          refine ⟨h.1, iff_of_false h.2.1 (by simp), fun hh => absurd hh h.2.2⟩
      · rw [if_neg hcond]
        have hcsclean : suffClean cs := suffClean_suffix (u := [c]) (by simpa using hcl)
        have hih := ih (isWordM c) cs (by omega) hcsclean
        have h := clean_step_emit [c] cs
          (by simpa using hcl) (by simp) hih.1 hih.2.1 hih.2.2
        simpa using h

theorem subAbbrevGo_clean (k0 : Char) (ks repl : List Char)
    (hrepl : cleanSpaced repl) (hrne : repl ≠ []) :
    ∀ (fuel : Nat) (prevW : Bool) (l : List Char), l.length ≤ fuel → suffClean l →
      suffClean (subAbbrevGo k0 ks repl fuel prevW l) ∧
      (subAbbrevGo k0 ks repl fuel prevW l = [] ↔ l = []) ∧
      ((subAbbrevGo k0 ks repl fuel prevW l).head? = some ' ' →
        l.head? = some ' ') := by
  intro fuel
  induction fuel with
  | zero =>
    intro prevW l hlen hcl
    cases l with
    | nil => exact ⟨suffClean_nil, by simp [subAbbrevGo], by simp [subAbbrevGo]⟩
    | cons c cs => simp at hlen
  | succ fuel ih =>
    intro prevW l hlen hcl
    cases l with
    | nil => exact ⟨suffClean_nil, by simp [subAbbrevGo], by simp [subAbbrevGo]⟩
    | cons c cs =>
      simp only [List.length_cons, Nat.succ_le_succ_iff] at hlen
      have hcsclean : suffClean cs := suffClean_suffix (u := [c]) (by simpa using hcl)
      have hemit : suffClean (c :: subAbbrevGo k0 ks repl fuel (isWordM c) cs) ∧
          (c :: subAbbrevGo k0 ks repl fuel (isWordM c) cs = [] ↔ c :: cs = []) ∧
          ((c :: subAbbrevGo k0 ks repl fuel (isWordM c) cs).head? = some ' ' →
            (c :: cs).head? = some ' ') := by
        have hih := ih (isWordM c) cs (by omega) hcsclean
        have h := clean_step_emit [c] cs
          (by simpa using hcl) (by simp) hih.1 hih.2.1 hih.2.2
        simpa using h
      simp only [subAbbrevGo]
      by_cases hcond : prevW = false ∧ toLowerM c = toLowerM k0
      · rw [if_pos hcond]
        cases hse : splitCI ks cs with
        | none => exact hemit
        | some mr =>
          obtain ⟨m, rest⟩ := mr
          have hcseq : cs = m ++ rest := splitCI_eq_append hse
          dsimp only
          by_cases hw : headIsWord rest = true
          · rw [if_pos hw]
            exact hemit
          · rw [if_neg hw]
            have hrestlen : rest.length ≤ fuel := by
              have : rest.length ≤ cs.length := splitCI_rest_length hse
              omega
            have hrestclean : suffClean rest := by
              refine suffClean_suffix (u := c :: m) ?_
              rw [show (c :: m) ++ rest = c :: cs from by rw [List.cons_append, ← hcseq]]
              exact hcl
            have hih := ih (isWordM (m.getLastD c)) rest hrestlen hrestclean
            have h := clean_step_repl hrepl hrne hih.1
            exact ⟨h.1, iff_of_false h.2.1 (by simp), fun hh => absurd hh h.2.2⟩
      · rw [if_neg hcond]
        exact hemit

theorem strReplaceGo_clean (k0 : Char) (ks repl : List Char)
    (hrepl : cleanSpaced repl) (hrne : repl ≠ []) :
    ∀ (fuel : Nat) (l : List Char), l.length ≤ fuel → suffClean l →
      suffClean (strReplaceGo k0 ks repl fuel l) ∧
      (strReplaceGo k0 ks repl fuel l = [] ↔ l = []) ∧
      ((strReplaceGo k0 ks repl fuel l).head? = some ' ' →
        l.head? = some ' ') := by
  intro fuel
  induction fuel with
  | zero =>
    intro l hlen hcl
    cases l with
    | nil => exact ⟨suffClean_nil, by simp [strReplaceGo], by simp [strReplaceGo]⟩
    | cons c cs => simp at hlen
  | succ fuel ih =>
    intro l hlen hcl
    cases l with
    | nil => exact ⟨suffClean_nil, by simp [strReplaceGo], by simp [strReplaceGo]⟩
    | cons c cs =>
      simp only [List.length_cons, Nat.succ_le_succ_iff] at hlen
      have hcsclean : suffClean cs := suffClean_suffix (u := [c]) (by simpa using hcl)
      have hemit : suffClean (c :: strReplaceGo k0 ks repl fuel cs) ∧
          (c :: strReplaceGo k0 ks repl fuel cs = [] ↔ c :: cs = []) ∧
          ((c :: strReplaceGo k0 ks repl fuel cs).head? = some ' ' →
            (c :: cs).head? = some ' ') := by
        have hih := ih cs (by omega) hcsclean
        have h := clean_step_emit [c] cs
          (by simpa using hcl) (by simp) hih.1 hih.2.1 hih.2.2
        simpa using h
      simp only [strReplaceGo]
      by_cases hcond : c = k0
      · rw [if_pos hcond]
        cases hse : splitExact ks cs with
        | none => exact hemit
        | some rest =>
          have hcseq : cs = ks ++ rest := splitExact_eq_append hse
          have hrestlen : rest.length ≤ fuel := by
            have : rest.length ≤ cs.length := splitExact_length hse
            omega
          have hrestclean : suffClean rest := by
            refine suffClean_suffix (u := c :: ks) ?_
            rw [show (c :: ks) ++ rest = c :: cs from by rw [List.cons_append, ← hcseq]]
            exact hcl
          have hih := ih rest hrestlen hrestclean
          have h := clean_step_repl hrepl hrne hih.1
          exact ⟨h.1, iff_of_false h.2.1 (by simp), fun hh => absurd hh h.2.2⟩
      · rw [if_neg hcond]
        exact hemit

theorem sortedAbbrevs_values_clean :
    ∀ kv ∈ sortedAbbrevs, cleanSpaced kv.2 ∧ kv.2 ≠ [] := by decide

theorem sortedNumberMap_values_clean :
    ∀ kv ∈ sortedNumberMap, cleanSpaced kv.2 ∧ kv.2 ≠ [] := by decide

theorem subAbbrev_clean {key repl l : List Char}
    (hrepl : cleanSpaced repl) (hrne : repl ≠ []) (hl : cleanSpaced l) :
    cleanSpaced (subAbbrev key repl l) := by
  cases key with
  | nil => exact hl
  | cons k0 ks =>
    have h := subAbbrevGo_clean k0 ks repl hrepl hrne l.length false l
      (Nat.le_refl _) hl.1
    exact ⟨h.1, fun hh => hl.2 (h.2.2 hh)⟩

theorem foldl_subAbbrev_clean (tbl : List (List Char × List Char))
    (htbl : ∀ kv ∈ tbl, cleanSpaced kv.2 ∧ kv.2 ≠ []) :
    ∀ l, cleanSpaced l →
      cleanSpaced (tbl.foldl (fun result kv => subAbbrev kv.1 kv.2 result) l) := by
  induction tbl with
  | nil => exact fun l hl => hl
  | cons kv tbl ih =>
    intro l hl
    simp only [List.foldl_cons]
    exact ih (fun kv2 h2 => htbl kv2 (by simp [h2])) _
      (subAbbrev_clean (htbl kv (by simp)).1 (htbl kv (by simp)).2 hl)

theorem strReplace_clean {key repl l : List Char}
    (hrepl : cleanSpaced repl) (hrne : repl ≠ []) (hl : cleanSpaced l) :
    cleanSpaced (strReplace key repl l) := by
  cases key with
  | nil => exact hl
  | cons k0 ks =>
    have h := strReplaceGo_clean k0 ks repl hrepl hrne l.length l
      (Nat.le_refl _) hl.1
    exact ⟨h.1, fun hh => hl.2 (h.2.2 hh)⟩

theorem foldl_strReplace_clean (tbl : List (List Char × List Char))
    (htbl : ∀ kv ∈ tbl, cleanSpaced kv.2 ∧ kv.2 ≠ []) :
    ∀ l, cleanSpaced l →
      cleanSpaced (tbl.foldl (fun result kv => strReplace kv.1 kv.2 result) l) := by
  induction tbl with
  | nil => exact fun l hl => hl
  | cons kv tbl ih =>
    intro l hl
    simp only [List.foldl_cons]
    exact ih (fun kv2 h2 => htbl kv2 (by simp [h2])) _
      (strReplace_clean (htbl kv (by simp)).1 (htbl kv (by simp)).2 hl)

/-- On canonically spaced text the anchored `^В\s+` rewrite is the identity. -/
theorem subStartV_clean {l : List Char} (hl : cleanSpaced l) : subStartV l = l := by
  cases l with
  | nil => rfl
  | cons c rest =>
    unfold subStartV
    dsimp only
    by_cases h : c = 'В' ∧ headIsSpace rest = true
    · rw [if_pos h]
      cases rest with
      | nil => exact absurd h.2 (by simp [headIsSpace])
      | cons s r =>
        have hs : isPySpace s = true := by simpa [headIsSpace] using h.2
        have hsp : s = ' ' := isPySpace_eq_space hl.1.1 (by simp) hs
        subst hsp
        have hrdrop : r.dropWhile isPySpace = r := by
          refine dropWhile_eq_self_of_head ?_
          intro d hd
          by_contra hdc
          rw [Bool.not_eq_false] at hdc
          have hdmem : d ∈ c :: ' ' :: r := by
            simp [List.mem_of_mem_head? (by rw [Option.mem_def, hd] : d ∈ r.head?)]
          have hd' : d = ' ' := isPySpace_eq_space hl.1.1 hdmem hdc
          have hch := hl.1.2.1
          rw [List.chain'_cons] at hch
          have hch2 := hch.2
          rw [List.chain'_cons'] at hch2
          exact hch2.1 d (by rw [Option.mem_def, hd]) ⟨rfl, hd'⟩
        have hdrop : (' ' :: r).dropWhile isPySpace = r := by
          rw [List.dropWhile_cons, if_pos (by decide)]
          exact hrdrop
        rw [hdrop, h.1]
    · rw [if_neg h]

theorem clean_append_space {u v : List Char} (hu : cleanSpaced u) (hune : u ≠ [])
    (hv : cleanSpaced v) (hvne : v ≠ []) : cleanSpaced (u ++ ' ' :: v) := by
  obtain ⟨⟨huop, huch, hul⟩, huh⟩ := hu
  obtain ⟨⟨hvop, hvch, hvl⟩, hvh⟩ := hv
  refine ⟨⟨?_, ?_, ?_⟩, ?_⟩
  · unfold isOnlyPlainSpace at *
    rw [List.all_append, Bool.and_eq_true, List.all_cons]
    exact ⟨huop, by rw [hvop]; decide⟩
  · rw [List.chain'_append]
    refine ⟨huch, ?_, ?_⟩
    · rw [List.chain'_cons']
      exact ⟨fun y hy hc => head?_ne_space hvh y hy hc.2, hvch⟩
    · intro x hx y hy hc
      exact getLast?_ne_space hul x hx hc.1
  · rw [getLast?_append_of_ne_nil (by simp), getLast?_cons_of_ne_nil hvne]
    exact hvl
  · rw [head?_append_of_ne_nil hune]
    exact huh

theorem intercalSpace_clean (ws : List (List Char))
    (hws : ∀ w ∈ ws, w ≠ [] ∧ ∀ c ∈ w, isPySpace c = false) :
    cleanSpaced (intercalSpace ws) ∧ (ws ≠ [] → intercalSpace ws ≠ []) := by
  induction ws with
  | nil => exact ⟨cleanSpaced_nil, fun h => absurd rfl h⟩
  | cons w ws ih =>
    have hw := hws w (by simp)
    cases hws2 : ws with
    | nil =>
      refine ⟨?_, fun _ => ?_⟩
      · exact cleanSpaced_of_no_ws hw.2
      · simpa [intercalSpace] using hw.1
    | cons w2 ws2 =>
      have hi := ih (fun x hx => hws x (by simp [hx]))
      rw [hws2] at hi
      rw [show intercalSpace (w :: w2 :: ws2) =
        w ++ ' ' :: intercalSpace (w2 :: ws2) from rfl]
      refine ⟨clean_append_space (cleanSpaced_of_no_ws hw.2) hw.1 hi.1
        (hi.2 (by simp)), fun _ => by simp [hw.1]⟩

theorem pySplitGo_words : ∀ (fuel : Nat) (l : List Char), l.length ≤ fuel →
    ∀ w ∈ pySplitGo fuel l, w ≠ [] ∧ ∀ c ∈ w, isPySpace c = false := by
  intro fuel
  induction fuel with
  | zero =>
    intro l h w hw
    cases l <;> simp [pySplitGo] at hw
  | succ fuel ih =>
    intro l h w hw
    cases l with
    | nil => simp [pySplitGo] at hw
    | cons c cs =>
      simp only [List.length_cons, Nat.succ_le_succ_iff] at h
      simp only [pySplitGo] at hw
      by_cases hc : isPySpace c = true
      · rw [if_pos hc] at hw
        exact ih cs (by omega) w hw
      · rw [if_neg hc] at hw
        rcases List.mem_cons.mp hw with hw | hw
        · subst hw
          refine ⟨by simp, ?_⟩
          intro d hd
          rcases List.mem_cons.mp hd with hd | hd
          · subst hd
            simpa using hc
          · have := List.mem_takeWhile_imp hd
            simpa using this
        · exact ih _ (le_trans (dropWhile_length_le _ _) h) w hw

theorem joinSpaces_clean (l : List Char) : cleanSpaced (joinSpaces l) :=
  (intercalSpace_clean _ (pySplitGo_words l.length l (Nat.le_refl _))).1

theorem yof_branch (dict : List (List Char × List Char))
    (hdict : ∀ kv ∈ dict, yoWordEntry kv) (tok rest : List Char)
    {out' : List Char}
    (htokne : tok ≠ []) (hsplit : suffClean (tok ++ rest))
    (hout : suffClean out' ∧ (out' = [] ↔ rest = []) ∧
      (out'.head? = some ' ' → rest.head? = some ' ')) :
    suffClean (yoficateToken dict tok ++ out') ∧
    (yoficateToken dict tok ++ out' = [] ↔ tok ++ rest = []) ∧
    ((yoficateToken dict tok ++ out').head? = some ' ' →
      (tok ++ rest).head? = some ' ') := by
  by_cases halpha : pyIsAlpha tok = true
  · have hf := yoficateToken_alpha dict hdict halpha
    obtain ⟨hfne, hfall⟩ := pyIsAlpha_iff.mp hf
    have hfclean : cleanSpaced (yoficateToken dict tok) :=
      cleanSpaced_of_no_ws (fun c hc => not_pySpace_of_alpha (hfall c hc))
    have h := clean_step_repl hfclean hfne hout.1
    exact ⟨h.1, iff_of_false h.2.1 (by simp [htokne]), fun hh => absurd hh h.2.2⟩
  · have hf : yoficateToken dict tok = tok :=
      yoficateToken_not_alpha dict hdict (Bool.not_eq_true _ ▸ halpha)
    rw [hf]
    exact clean_step_emit tok rest hsplit htokne hout.1 hout.2.1 hout.2.2

theorem yofTokens_clean (dict : List (List Char × List Char))
    (hdict : ∀ kv ∈ dict, yoWordEntry kv) :
    ∀ (fuel : Nat) (l : List Char), l.length ≤ fuel → suffClean l →
      suffClean (((tokenizeGo fuel l).map (yoficateToken dict)).flatten) ∧
      (((tokenizeGo fuel l).map (yoficateToken dict)).flatten = [] ↔ l = []) ∧
      ((((tokenizeGo fuel l).map (yoficateToken dict)).flatten).head? = some ' ' →
        l.head? = some ' ') := by
  intro fuel
  induction fuel with
  | zero =>
    intro l hlen hcl
    cases l with
    | nil => exact ⟨suffClean_nil, by simp [tokenizeGo], by simp [tokenizeGo]⟩
    | cons c cs => simp at hlen
  | succ fuel ih =>
    intro l hlen hcl
    cases l with
    | nil => exact ⟨suffClean_nil, by simp [tokenizeGo], by simp [tokenizeGo]⟩
    | cons c cs =>
      simp only [List.length_cons, Nat.succ_le_succ_iff] at hlen
      simp only [tokenizeGo]
      split_ifs with h1 h2
      · have heq : (c :: cs.takeWhile isPySpace) ++ cs.dropWhile isPySpace =
            c :: cs := by
          rw [List.cons_append, List.takeWhile_append_dropWhile]
        have hih := ih (cs.dropWhile isPySpace)
          (le_trans (dropWhile_length_le _ _) hlen)
          (suffClean_suffix (u := c :: cs.takeWhile isPySpace)
            (by rw [heq]; exact hcl))
        simp only [List.map_cons, List.flatten_cons]
        have h := yof_branch dict hdict (c :: cs.takeWhile isPySpace)
          (cs.dropWhile isPySpace) (by simp) (by rw [heq]; exact hcl) hih
        rw [heq] at h
        exact ⟨h.1, by simpa using h.2.1, h.2.2⟩
      · have heq : (c :: cs.takeWhile isWordM) ++ cs.dropWhile isWordM =
            c :: cs := by
          rw [List.cons_append, List.takeWhile_append_dropWhile]
        have hih := ih (cs.dropWhile isWordM)
          (le_trans (dropWhile_length_le _ _) hlen)
          (suffClean_suffix (u := c :: cs.takeWhile isWordM)
            (by rw [heq]; exact hcl))
        simp only [List.map_cons, List.flatten_cons]
        have h := yof_branch dict hdict (c :: cs.takeWhile isWordM)
          (cs.dropWhile isWordM) (by simp) (by rw [heq]; exact hcl) hih
        rw [heq] at h
        exact ⟨h.1, by simpa using h.2.1, h.2.2⟩
      · have heq : (c :: cs.takeWhile (fun d => ! isWordM d)) ++
            cs.dropWhile (fun d => ! isWordM d) = c :: cs := by
          rw [List.cons_append, List.takeWhile_append_dropWhile]
        have hih := ih (cs.dropWhile (fun d => ! isWordM d))
          (le_trans (dropWhile_length_le _ _) hlen)
          (suffClean_suffix (u := c :: cs.takeWhile (fun d => ! isWordM d))
            (by rw [heq]; exact hcl))
        simp only [List.map_cons, List.flatten_cons]
        have h := yof_branch dict hdict (c :: cs.takeWhile (fun d => ! isWordM d))
          (cs.dropWhile (fun d => ! isWordM d)) (by simp) (by rw [heq]; exact hcl) hih
        rw [heq] at h
        exact ⟨h.1, by simpa using h.2.1, h.2.2⟩

theorem yoficate_clean (dict : List (List Char × List Char))
    (hdict : ∀ kv ∈ dict, yoWordEntry kv) {l : List Char}
    (hl : cleanSpaced l) : cleanSpaced (yoficate dict l) := by
  unfold yoficate
  split
  · exact hl
  · unfold tokenize
    have h := yofTokens_clean dict hdict l.length l (Nat.le_refl _) hl.1
    exact ⟨h.1, fun hh => hl.2 (h.2.2 hh)⟩

theorem simpleNumberConversion_clean (lang : Language) {l : List Char}
    (hl : cleanSpaced l) : cleanSpaced (simpleNumberConversion lang l) := by
  cases lang with
  | russian =>
    unfold simpleNumberConversion simpleNumberConversionRussian applyAbbreviations
    rw [subStartV_clean hl]
    have h2 := foldl_subAbbrev_clean sortedAbbrevs sortedAbbrevs_values_clean l hl
    unfold replaceAllNumbers
    have h3 := replaceNumbersGo_clean _ false _ (Nat.le_refl _) h2.1
    exact ⟨h3.1, fun hh => h2.2 (h3.2.2 hh)⟩
  | english =>
    unfold simpleNumberConversion simpleNumberConversionEnglish
    exact foldl_strReplace_clean sortedNumberMap sortedNumberMap_values_clean l hl

theorem normalizeText_clean (yoDict : List (List Char × List Char))
    (hdict : ∀ kv ∈ yoDict, yoWordEntry kv) (lang : Language) {l : List Char}
    (hl : cleanSpaced l) : cleanSpaced (normalizeText yoDict l lang) := by
  unfold normalizeText
  split
  · exact hl
  · cases lang with
    | russian =>
      dsimp only
      exact yoficate_clean yoDict hdict (simpleNumberConversion_clean .russian hl)
    | english =>
      dsimp only
      exact simpleNumberConversion_clean .english hl

theorem pyRStrip_eq_self {l : List Char}
    (h : ∀ c, l.getLast? = some c → isPySpace c = false) : pyRStrip l = l := by
  unfold pyRStrip
  rw [dropWhile_eq_self_of_head (v := l.reverse) ?_, List.reverse_reverse]
  intro c hc
  refine h c ?_
  rw [← List.head?_reverse]
  exact hc

theorem cleanSpaced_append_dot {l : List Char} (hl : cleanSpaced l)
    (hne : l ≠ []) : cleanSpaced (l ++ ['.']) := by
  obtain ⟨⟨hop, hch, hlast⟩, hh⟩ := hl
  refine ⟨⟨?_, ?_, ?_⟩, ?_⟩
  · unfold isOnlyPlainSpace at *
    rw [List.all_append, Bool.and_eq_true]
    exact ⟨hop, by decide⟩
  · rw [List.chain'_append]
    refine ⟨hch, List.chain'_singleton _, ?_⟩
    intro x hx y hy hc
    rw [Option.mem_def, List.head?_cons, Option.some.injEq] at hy
    rw [hc.2] at hy
    exact absurd hy (by decide)
  · rw [List.getLast?_concat]
    simp
  · rw [head?_append_of_ne_nil hne]
    exact hh

theorem cleanSpaced_facts {l : List Char} (h : cleanSpaced l) :
    (∀ c, l.head? = some c → isPySpace c = false) ∧
    (∀ c, l.getLast? = some c → isPySpace c = false) ∧
    (∀ u a b v, l = u ++ a :: b :: v →
      isPySpace a = false ∨ isPySpace b = false) := by
  obtain ⟨⟨hop, hch, hlast⟩, hh⟩ := h
  refine ⟨?_, ?_, ?_⟩
  · intro c hc
    by_contra hcs
    rw [Bool.not_eq_false] at hcs
    have hcsp := isPySpace_eq_space hop
      (List.mem_of_mem_head? (by rw [Option.mem_def, hc])) hcs
    rw [hcsp] at hc
    exact hh hc
  · intro c hc
    by_contra hcs
    rw [Bool.not_eq_false] at hcs
    have hcsp := isPySpace_eq_space hop
      (List.mem_of_mem_getLast? (by rw [Option.mem_def, hc])) hcs
    rw [hcsp] at hc
    exact hlast hc
  · intro u a b v hl
    by_contra hcon
    rw [not_or] at hcon
    obtain ⟨ha, hb⟩ := hcon
    rw [Bool.not_eq_false] at ha hb
    have ha' : a = ' ' := isPySpace_eq_space hop (by rw [hl]; simp) ha
    have hb' : b = ' ' := isPySpace_eq_space hop (by rw [hl]; simp) hb
    rw [hl] at hch
    have hch2 := (List.chain'_append.mp hch).2.1
    rw [List.chain'_cons] at hch2
    exact hch2.1 ⟨ha', hb'⟩

theorem finalizePunctuation_clean {l : List Char} (hl : cleanSpaced l) :
    finalizePunctuation l = [] ∨ cleanSpaced (finalizePunctuation l) := by
  simp only [finalizePunctuation]
  split
  · next hre => exact Or.inl (by simpa [List.isEmpty_iff] using hre)
  · next hne =>
    right
    have hne' : l ≠ [] := by simpa [List.isEmpty_iff] using hne
    have hstrip : pyRStrip l = l :=
      pyRStrip_eq_self (cleanSpaced_facts hl).2.1
    rw [hstrip]
    split
    · exact hl
    · exact cleanSpaced_append_dot hl hne'

/-- C10: when the accent-placement stage is skipped (accent disabled or no
accentizer), a non-empty canonical text from `preprocess_text_for_tts` has no
leading or trailing whitespace and no two adjacent whitespace characters —
internal whitespace of the raw input is collapsed to single spaces before
normalization and every later stage preserves that shape. -/
theorem preprocess_whitespace_normalized (yoDict : List (List Char × List Char))
    (hdict : ∀ kv ∈ yoDict, yoWordEntry kv) (enableAccent : Bool)
    (accentizer : Option (List Char → List Char))
    (hskip : enableAccent = false ∨ accentizer = none) (text : List Char) :
    preprocessTextForTTS yoDict enableAccent accentizer text = [] ∨
    ((∀ c, (preprocessTextForTTS yoDict enableAccent accentizer text).head? =
        some c → isPySpace c = false) ∧
     (∀ c, (preprocessTextForTTS yoDict enableAccent accentizer text).getLast? =
        some c → isPySpace c = false) ∧
     (∀ u a b v, preprocessTextForTTS yoDict enableAccent accentizer text =
        u ++ a :: b :: v → isPySpace a = false ∨ isPySpace b = false)) := by
  simp only [preprocessTextForTTS]
  split
  · exact Or.inl rfl
  split
  · exact Or.inl rfl
  split
  · exact Or.inl rfl
  have ht' : cleanSpaced (normalizeText yoDict
      (joinSpaces (removeLongSymbolSequences (pyStrip text)))
      (detectLanguage (removeLongSymbolSequences (pyStrip text)))) :=
    normalizeText_clean yoDict hdict _ (joinSpaces_clean _)
  have hacc : (if detectLanguage (removeLongSymbolSequences (pyStrip text)) =
        Language.russian ∧ enableAccent = true then
      addAccents accentizer (normalizeText yoDict
        (joinSpaces (removeLongSymbolSequences (pyStrip text)))
        (detectLanguage (removeLongSymbolSequences (pyStrip text))))
    else normalizeText yoDict
      (joinSpaces (removeLongSymbolSequences (pyStrip text)))
      (detectLanguage (removeLongSymbolSequences (pyStrip text)))) =
      normalizeText yoDict
        (joinSpaces (removeLongSymbolSequences (pyStrip text)))
        (detectLanguage (removeLongSymbolSequences (pyStrip text))) := by
    rcases hskip with hs | hs
    · rw [if_neg (by simp [hs])]
    · subst hs
      split
      · rfl
      · rfl
  rw [hacc]
  rcases finalizePunctuation_clean ht' with h | h
  · exact Or.inl h
  · exact Or.inr (cleanSpaced_facts h)

theorem preprocess_whitespace_normalized_witness :
    preprocessTextForTTS [] false none (str "а  б") = [] ∨
    ((∀ c, (preprocessTextForTTS [] false none (str "а  б")).head? = some c →
      isPySpace c = false) ∧
     (∀ c, (preprocessTextForTTS [] false none (str "а  б")).getLast? = some c →
      isPySpace c = false) ∧
     (∀ u a b v, preprocessTextForTTS [] false none (str "а  б") =
      u ++ a :: b :: v → isPySpace a = false ∨ isPySpace b = false)) :=
  preprocess_whitespace_normalized [] (by simp) false none (Or.inl rfl)
    (str "а  б")

end TTSRus
